import Mathlib

/-!
Shallow embedding of the semantic-version component of the gopi repository
(the Go `version` package, type `Class`), together with theorems checking the
specification's claims about it.

Modelling conventions:
* Go strings are modelled as `List Char` (`Str`); all strings the component
  accepts are ASCII, where byte order and codepoint order coincide.
* Go `uint64` fields are modelled as `Nat`, with an explicit `% 2 ^ 64` at the
  one place arithmetic can overflow (the increments) and an explicit
  `< 2 ^ 64` bound where `strconv.ParseUint(_, 10, 64)` enforces one.
* A Go `(T, error)` return is an `Except VErr T` or a pair with `Option VErr`
  (`none` = nil error).
* Methods with pointer receivers that write to the receiver are modelled as
  state passing: they return the receiver's state after the call alongside the
  Go return value.
-/

namespace Version

/-- Go strings, modelled as their character sequences. -/
abbrev Str := List Char

/-- Character list of a Lean string literal, used to write concrete inputs. -/
def str (s : String) : Str := s.data

/-- The error values declared at the top of the source file
(`ErrInvalidSemVer`, `ErrEmptyString`, `ErrInvalidCharacters`,
`ErrSegmentStartsZero`, `ErrInvalidMetadata`, `ErrInvalidPrerelease`), plus:
`strconvError` for a raw `strconv.ParseUint` failure that `StrictNew` returns
unwrapped, `parseSegment` for the `fmt.Errorf("error parsing Class segment:
%s", err)` wrapping in `New`, and `jsonError` for a failure of the external
`json.Unmarshal` step in `UnmarshalJSON`. -/
inductive VErr where
  | invalidSemVer
  | emptyString
  | invalidCharacters
  | segmentStartsZero
  | invalidMetadata
  | invalidPrerelease
  | strconvError
  | parseSegment
  | jsonError
  deriving DecidableEq, Repr

/-- `const num = "0123456789"`. -/
def numChars : Str := str "0123456789"

/-- `const allowed = "abcdefghijklmnopqrstuvwxyzABCDEFGHIJKLMNOPQRSTUVWXYZ-" + num`. -/
def allowedChars : Str :=
  str "abcdefghijklmnopqrstuvwxyzABCDEFGHIJKLMNOPQRSTUVWXYZ-" ++ numChars

/-- `containsOnly(s, comp)`: every rune of `s` occurs in `comp` (the source
phrases this with `strings.IndexFunc`). -/
def containsOnly (s comp : Str) : Bool := s.all (fun r => comp.contains r)

/-- `strings.ContainsAny(s, chars)`. -/
def containsAny (s chars : Str) : Bool := s.any (fun c => chars.contains c)

/-- Splits off everything before the first occurrence of `sep`; `none` when
`sep` does not occur. Helper for modelling `strings.Split` / `strings.SplitN`
with the one-character separators used by the source (`"."`, `"+"`, `"-"`). -/
def splitFirst (sep : Char) : Str → Option (Str × Str)
  | [] => none
  | c :: cs =>
    if c = sep then some ([], cs)
    else (splitFirst sep cs).map (fun p => (c :: p.1, p.2))

theorem splitFirst_snd_lt (sep : Char) :
    ∀ (s a b : Str), splitFirst sep s = some (a, b) → b.length < s.length := by
  intro s
  induction s with
  | nil => intro a b h; simp [splitFirst] at h
  | cons c cs ih =>
    intro a b h
    simp only [splitFirst] at h
    split at h
    · cases h; simp
    · match hm : splitFirst sep cs with
      | none => rw [hm] at h; simp at h
      | some (a', b') =>
        rw [hm] at h
        simp only [Option.map_some', Option.some.injEq, Prod.mk.injEq] at h
        obtain ⟨h1, h2⟩ := h
        have := ih a' b' hm
        rw [h2] at this
        simp only [List.length_cons]
        omega

/-- Fuel-based body of `splitAll`; any `fuel > s.length` computes the full
split (each round removes at least the separator from the remainder). -/
def splitAllAux : Nat → Char → Str → List Str
  | 0, _, s => [s]
  | fuel + 1, sep, s =>
    match splitFirst sep s with
    | none => [s]
    | some (a, b) => a :: splitAllAux fuel sep b

/-- `strings.Split(s, sep)` for a one-character separator: unlimited split.
Note `strings.Split("", sep) = [""]` in Go, matched here. -/
def splitAll (sep : Char) (s : Str) : List Str := splitAllAux (s.length + 1) sep s

theorem splitAllAux_congr (sep : Char) :
    ∀ (f g : Nat) (s : Str), s.length < f → s.length < g →
      splitAllAux f sep s = splitAllAux g sep s := by
  intro f
  induction f with
  | zero => intro g s hf; omega
  | succ f ih =>
    intro g s hf hg
    match g with
    | 0 => omega
    | g + 1 =>
      match hm : splitFirst sep s with
      | none => simp only [splitAllAux, hm]
      | some (a, b) =>
        have hb := splitFirst_snd_lt sep s a b hm
        simp only [splitAllAux, hm]
        rw [ih g b (by omega) (by omega)]

/-- The recursion equation of `splitAll`. -/
theorem splitAll_eq (sep : Char) (s : Str) :
    splitAll sep s = (match splitFirst sep s with
      | none => [s]
      | some (a, b) => a :: splitAll sep b) := by
  show splitAllAux (s.length + 1) sep s = _
  match hm : splitFirst sep s with
  | none => simp only [splitAllAux, hm]
  | some (a, b) =>
    have hb := splitFirst_snd_lt sep s a b hm
    simp only [splitAllAux, hm]
    exact congrArg _ (splitAllAux_congr sep s.length (b.length + 1) b (by omega) (by omega))

/-- `strings.SplitN(s, sep, n)` for a one-character separator and `n ≥ 1`. -/
def splitN (s : Str) (sep : Char) : Nat → List Str
  | 0 => []
  | 1 => [s]
  | Nat.succ (Nat.succ m) =>
    match splitFirst sep s with
    | none => [s]
    | some (a, b) => a :: splitN b sep (m + 1)

/-- Joins identifiers with `.` (left inverse of `splitAll '.'`). -/
def joinDot : List Str → Str
  | [] => []
  | [x] => x
  | x :: y :: xs => x ++ '.' :: joinDot (y :: xs)

/-- Numeric value of a decimal digit character (`c - '0'`). -/
def digitVal (c : Char) : Nat := c.toNat - 48

/-- Value of a decimal digit string, most significant digit first. -/
def digitsVal (s : Str) : Nat := s.foldl (fun acc c => 10 * acc + digitVal c) 0

/-- Is `c` one of the bytes `0`–`9`? This is the character class `[0-9]` of
`semVerRegex` and also the digits accepted by `strconv.ParseUint` in base 10. -/
def isDigitC (c : Char) : Bool := numChars.contains c

/-- `strconv.ParseUint(s, 10, 64)`: accepts one or more decimal digits (no
sign, no other characters) whose value fits in 64 bits; `none` models a
non-nil error. -/
def parseUint64 (s : Str) : Option Nat :=
  if s ≠ [] ∧ s.all isDigitC ∧ digitsVal s < 2 ^ 64 then some (digitsVal s) else none

/-- `len(p) > 1 && p[0] == '0'`. -/
def leadingZero (p : Str) : Bool :=
  match p with
  | c :: _ :: _ => c = '0'
  | _ => false

/-- The per-identifier loop of `validatePrerelease`, applied to
`strings.Split(p, ".")`; the first violation wins. -/
def validatePreList : List Str → Option VErr
  | [] => none
  | p :: rest =>
    if containsOnly p numChars then
      if leadingZero p then some VErr.segmentStartsZero
      else validatePreList rest
    else if ¬ containsOnly p allowedChars then some VErr.invalidPrerelease
    else validatePreList rest

/-- `validatePrerelease(p)`: each dot-separated identifier is either numeric
without a leading zero, or made of the allowed characters. Returns the Go
error, `none` meaning nil. -/
def validatePrerelease (p : Str) : Option VErr := validatePreList (splitAll '.' p)

/-- The per-identifier loop of `validateMetadata`. -/
def validateMetaList : List Str → Option VErr
  | [] => none
  | p :: rest =>
    if ¬ containsOnly p allowedChars then some VErr.invalidMetadata
    else validateMetaList rest

/-- `validateMetadata(m)`. -/
def validateMetadata (m : Str) : Option VErr := validateMetaList (splitAll '.' m)

instance {e a : Type} [DecidableEq e] [DecidableEq a] : DecidableEq (Except e a) := fun x y =>
  match x, y with
  | Except.error u, Except.error w =>
    if h : u = w then Decidable.isTrue (by rw [h])
    else Decidable.isFalse (by intro hc; cases hc; exact h rfl)
  | Except.error _, Except.ok _ => Decidable.isFalse (by intro hc; cases hc)
  | Except.ok _, Except.error _ => Decidable.isFalse (by intro hc; cases hc)
  | Except.ok u, Except.ok w =>
    if h : u = w then Decidable.isTrue (by rw [h])
    else Decidable.isFalse (by intro hc; cases hc; exact h rfl)

/-- `type Class struct { major, minor, patch uint64; pre, metadata, original string }`. -/
structure Class where
  major : Nat
  minor : Nat
  patch : Nat
  pre : Str
  metadata : Str
  original : Str
  deriving DecidableEq, Repr

/-- The character class `[0-9A-Za-z\-]` used by the prerelease and metadata
groups of `semVerRegex`; it is the same set as the `allowed` constant. -/
def isIdentChar (c : Char) : Bool := allowedChars.contains c

theorem dropWhile_length_le (p : Char → Bool) (l : Str) :
    (l.dropWhile p).length ≤ l.length := by
  induction l with
  | nil => simp
  | cons a as ih =>
    by_cases hp : p a
    · rw [List.dropWhile_cons_of_pos hp]; simp only [List.length_cons]; omega
    · rw [List.dropWhile_cons_of_neg hp]

/-- Fuel-based body of `moreIdents`; any `fuel > s.length` computes the full
greedy match (each round consumes at least the dot). -/
def moreIdentsAux : Nat → Str → List Str × Str
  | 0, s => ([], s)
  | fuel + 1, s =>
    match s with
    | c :: r =>
      if c = '.' then
        let idf := r.takeWhile isIdentChar
        if idf = [] then ([], c :: r)
        else
          let res := moreIdentsAux fuel (r.dropWhile isIdentChar)
          (idf :: res.1, res.2)
      else ([], c :: r)
    | [] => ([], [])

/-- Greedy match of the regex tail `(\.[0-9A-Za-z\-]+)*`: consumes `.`-prefixed
identifiers as long as possible, returning them and the unconsumed rest. -/
def moreIdents (s : Str) : List Str × Str := moreIdentsAux (s.length + 1) s

theorem moreIdentsAux_congr :
    ∀ (f g : Nat) (s : Str), s.length < f → s.length < g →
      moreIdentsAux f s = moreIdentsAux g s := by
  intro f
  induction f with
  | zero => intro g s hf; omega
  | succ f ih =>
    intro g s hf hg
    match g with
    | 0 => omega
    | g + 1 =>
      match s with
      | [] => rfl
      | c :: r =>
        simp only [moreIdentsAux]
        by_cases hc : c = '.'
        · rw [if_pos hc, if_pos hc]
          by_cases he : r.takeWhile isIdentChar = []
          · rw [if_pos he, if_pos he]
          · rw [if_neg he, if_neg he]
            have hd := dropWhile_length_le isIdentChar r
            simp only [List.length_cons] at hf hg
            rw [ih g (r.dropWhile isIdentChar) (by omega) (by omega)]
        · rw [if_neg hc, if_neg hc]

/-- The recursion equation of `moreIdents` in the nonempty case. -/
theorem moreIdents_eq (c : Char) (r : Str) :
    moreIdents (c :: r) =
      (if c = '.' then
        (if r.takeWhile isIdentChar = [] then ([], c :: r)
         else ((r.takeWhile isIdentChar) :: (moreIdents (r.dropWhile isIdentChar)).1,
               (moreIdents (r.dropWhile isIdentChar)).2))
       else ([], c :: r)) := by
  have h1 : moreIdentsAux ((c :: r).length + 1) (c :: r) =
      (if c = '.' then
        (if r.takeWhile isIdentChar = [] then (([] : List Str), c :: r)
         else ((r.takeWhile isIdentChar) ::
                 (moreIdentsAux ((c :: r).length) (r.dropWhile isIdentChar)).1,
               (moreIdentsAux ((c :: r).length) (r.dropWhile isIdentChar)).2))
       else ([], c :: r)) := rfl
  show moreIdentsAux ((c :: r).length + 1) (c :: r) = _
  rw [h1]
  have hd := dropWhile_length_le isIdentChar r
  have hx : moreIdentsAux ((c :: r).length) (r.dropWhile isIdentChar) =
      moreIdents (r.dropWhile isIdentChar) :=
    moreIdentsAux_congr ((c :: r).length) ((r.dropWhile isIdentChar).length + 1)
      (r.dropWhile isIdentChar) (by simp only [List.length_cons]; omega) (by omega)
  rw [hx]

/-- Greedy match of `[0-9A-Za-z\-]+(\.[0-9A-Za-z\-]+)*` (the body of the
prerelease/metadata groups): at least one identifier; returns the identifier
list and the unconsumed rest, or `none` when no identifier starts here. -/
def parseIdents (s : Str) : Option (List Str × Str) :=
  let idf := s.takeWhile isIdentChar
  if idf = [] then none
  else
    let rest := moreIdents (s.dropWhile isIdentChar)
    some (idf :: rest.1, rest.2)

/-- The capture groups of a successful anchored match of `semVerRegex`:
`m[1]` (major digits), `m[2]`/`m[3]` (the optional `.minor`/`.patch` groups,
stored here without the dot that `New` trims with `strings.TrimPrefix`),
`m[5]` (prerelease) and `m[8]` (metadata); the last two are `[]` when their
optional group did not participate, exactly as Go yields `""`. -/
structure RegexMatch where
  majS : Str
  minorS : Option Str
  patchS : Option Str
  preS : Str
  metaS : Str
  deriving DecidableEq, Repr

/-- One optional `(\.[0-9]+)?` group: consumed only when a dot followed by at
least one digit is present. -/
def parseNumGroup (s : Str) : Option Str × Str :=
  match s with
  | c :: r =>
    if c = '.' then
      let d := r.takeWhile isDigitC
      if d = [] then (none, c :: r) else (some d, r.dropWhile isDigitC)
    else (none, c :: r)
  | [] => (none, [])

/-- The `(\+([0-9A-Za-z\-]+(\.[0-9A-Za-z\-]+)*))?$` tail of the regex. -/
def matchMetaEnd (majS : Str) (minorS patchS : Option Str) (preS : Str)
    (r : Str) : Option RegexMatch :=
  match r with
  | c :: t =>
    if c = '+' then
      match parseIdents t with
      | none => none
      | some (ids, rest) =>
        if rest = [] then some ⟨majS, minorS, patchS, preS, joinDot ids⟩ else none
    else none
  | [] => some ⟨majS, minorS, patchS, preS, []⟩

/-- The optional `v?` group at the start of the regex: consumes one leading
lowercase `v` when present. -/
def stripV (s : Str) : Str :=
  match s with
  | c :: r => if c = 'v' then r else c :: r
  | [] => []

/-- `ClassRegex.FindStringSubmatch(v)` for `ClassRegex = "^" + semVerRegex + "$"`,
`semVerRegex = v?([0-9]+)(\.[0-9]+)?(\.[0-9]+)?(-(pre))?(\+(meta))?`.
The anchored regex is deterministic under leftmost-greedy matching — every
group boundary is decided by the next character (a digit run cannot contain
`.`; identifiers cannot contain `.` or `+`; skipping a matchable optional
group leaves a character no later group can consume) — so it is embedded as
this greedy functional parser. `none` models a failed match (`m == nil`). -/
def findStringSubmatch (s : Str) : Option RegexMatch :=
  let s1 := stripV s
  let maj := s1.takeWhile isDigitC
  if maj = [] then none
  else
    let r1 := s1.dropWhile isDigitC
    let mi := parseNumGroup r1
    let pa := parseNumGroup mi.2
    match pa.2 with
    | c :: t =>
      if c = '-' then
        match parseIdents t with
        | none => none
        | some (ids, r4) => matchMetaEnd maj mi.1 pa.1 (joinDot ids) r4
      else matchMetaEnd maj mi.1 pa.1 [] (c :: t)
    | [] => matchMetaEnd maj mi.1 pa.1 [] []

/-- `ParseUint` of an optional `.`-prefixed capture group in `New`: Go runs
`strconv.ParseUint(strings.TrimPrefix(m[i], "."), 10, 64)` when the group
matched (`m[i] != ""`) and defaults the segment to `0` otherwise. -/
def parseOptSeg : Option Str → Option Nat
  | none => some 0
  | some d => parseUint64 d

/-- `func New(v string) (*Class, error)`: the lenient parser. Matches the
anchored `semVerRegex`, converts the numeric groups with `ParseUint`, then
validates prerelease and metadata when non-empty. -/
def New (v : Str) : Except VErr Class :=
  match findStringSubmatch v with
  | none => Except.error VErr.invalidSemVer
  | some m =>
    match parseUint64 m.majS, parseOptSeg m.minorS, parseOptSeg m.patchS with
    | some major, some minor, some patch =>
      match (if m.preS ≠ [] then validatePrerelease m.preS else none) with
      | some e => Except.error e
      | none =>
        match (if m.metaS ≠ [] then validateMetadata m.metaS else none) with
        | some e => Except.error e
        | none => Except.ok ⟨major, minor, patch, m.preS, m.metaS, v⟩
    | _, _, _ => Except.error VErr.parseSegment

/-- The prerelease / build-metadata extraction `StrictNew` performs on
`parts[2]`, under the `strings.ContainsAny(parts[2], "-+")` guard: build
metadata is everything after the first `+` (when a `+` occurs), then the
prerelease is everything after the first `-` of the remainder (when one
occurs). Returns `(pre, metadata, remaining numeric part)`. -/
def extractPreMeta (p2orig : Str) : Str × Str × Str :=
  if containsAny p2orig (str "-+") then
    let step1 :=
      match splitN p2orig '+' 2 with
      | [a, b] => (b, a)
      | _ => (([] : Str), p2orig)
    match splitN step1.2 '-' 2 with
    | [a, b] => (b, step1.1, a)
    | _ => (([] : Str), step1.1, step1.2)
  else ([], [], p2orig)

/-- The numeric-segment check loop of `StrictNew` over `parts`: for each part,
first `ErrInvalidCharacters` for a non-digit character, then
`ErrSegmentStartsZero` for a leading zero; first failure wins. -/
def checkParts : List Str → Option VErr
  | [] => none
  | p :: rest =>
    if ¬ containsOnly p numChars then some VErr.invalidCharacters
    else if leadingZero p then some VErr.segmentStartsZero
    else checkParts rest

/-- `func StrictNew(v string) (*Class, error)`: the strict parser. Splits into
exactly three dot-separated parts, peels build metadata (first `+`) then
prerelease (first `-`) off the third part, checks the numeric segments,
converts them with `ParseUint`, and validates prerelease/metadata. -/
def StrictNew (v : Str) : Except VErr Class :=
  if v.length = 0 then Except.error VErr.emptyString
  else
    match splitN v '.' 3 with
    | [p0, p1, p2orig] =>
      let pmp := extractPreMeta p2orig
      let pre := pmp.1
      let metadata := pmp.2.1
      let p2 := pmp.2.2
      match checkParts [p0, p1, p2] with
      | some e => Except.error e
      | none =>
        match parseUint64 p0, parseUint64 p1, parseUint64 p2 with
        | some major, some minor, some patch =>
          if pre = [] ∧ metadata = [] then
            Except.ok ⟨major, minor, patch, pre, metadata, v⟩
          else
            match (if pre ≠ [] then validatePrerelease pre else none) with
            | some e => Except.error e
            | none =>
              match (if metadata ≠ [] then validateMetadata metadata else none) with
              | some e => Except.error e
              | none => Except.ok ⟨major, minor, patch, pre, metadata, v⟩
        | _, _, _ => Except.error VErr.strconvError
    | _ => Except.error VErr.invalidSemVer

/-- A decimal digit character, as produced by `%d` formatting. -/
def digitChar : Nat → Char
  | 0 => '0' | 1 => '1' | 2 => '2' | 3 => '3' | 4 => '4'
  | 5 => '5' | 6 => '6' | 7 => '7' | 8 => '8' | _ => '9'

/-- Fuel-based body of `natToStr`; any `fuel > n` computes the digits of `n`. -/
def natToStrAux : Nat → Nat → Str
  | 0, _ => []
  | fuel + 1, n =>
    if n < 10 then [digitChar n]
    else natToStrAux fuel (n / 10) ++ [digitChar (n % 10)]

/-- `fmt.Fprintf` `%d` formatting of a `uint64` value: decimal digits, most
significant first, no leading zeros. -/
def natToStr (n : Nat) : Str := natToStrAux (n + 1) n

theorem natToStrAux_congr :
    ∀ (f g n : Nat), n < f → n < g → natToStrAux f n = natToStrAux g n := by
  intro f
  induction f with
  | zero => intro g n hf; omega
  | succ f ih =>
    intro g n hf hg
    match g with
    | 0 => omega
    | g + 1 =>
      simp only [natToStrAux]
      by_cases h10 : n < 10
      · rw [if_pos h10, if_pos h10]
      · rw [if_neg h10, if_neg h10]
        have : n / 10 < n := Nat.div_lt_self (by omega) (by omega)
        rw [ih g (n / 10) (by omega) (by omega)]

/-- The recursion equation of `natToStr`. -/
theorem natToStr_eq (n : Nat) :
    natToStr n =
      (if n < 10 then [digitChar n]
       else natToStr (n / 10) ++ [digitChar (n % 10)]) := by
  show natToStrAux (n + 1) n = _
  simp only [natToStrAux]
  by_cases h10 : n < 10
  · rw [if_pos h10, if_pos h10]
  · rw [if_neg h10, if_neg h10]
    have : n / 10 < n := Nat.div_lt_self (by omega) (by omega)
    rw [natToStrAux_congr n (n / 10 + 1) (n / 10) (by omega) (by omega)]
    rfl

/-- `func (v *Class) String() string`: `major.minor.patch`, then `-pre` when
the prerelease is non-empty, then `+metadata` when the metadata is non-empty.
(The `Fprintf` error branches in the source are dead: writing to a
`bytes.Buffer` cannot fail.) -/
def Class.String (v : Class) : Str :=
  natToStr v.major ++ '.' :: natToStr v.minor ++ '.' :: natToStr v.patch
    ++ (if v.pre ≠ [] then '-' :: v.pre else [])
    ++ (if v.metadata ≠ [] then '+' :: v.metadata else [])

/-- `func NewByArgs(major, minor, patch uint64, pre, metadata string) *Class`:
direct, unvalidated construction; `original` is the formatted string. -/
def NewByArgs (major minor patch : Nat) (pre metadata : Str) : Class :=
  let v : Class := ⟨major, minor, patch, pre, metadata, []⟩
  { v with original := v.String }

/-- `originalVPrefix` (name shortened): the leading `"v"` of `original`, if
any (`v.original != "" && v.original[:1] == "v"`). -/
def Class.originalVPref (v : Class) : Str :=
  match v.original with
  | c :: _ => if c = 'v' then ['v'] else []
  | [] => []

/-- `func (v *Class) IncPatch() Class`. In the source, `vNext := v` copies the
**pointer**, so every field assignment writes through to the receiver, and the
function returns `*vNext`, a copy of the mutated receiver. Modelled as state
passing: the result is `(receiver state after the call, returned value)`, and
the two components coincide. `original` is recomputed from the old `v` prefix
and the new formatted string. -/
def Class.IncPatch (v : Class) : Class × Class :=
  let vNext :=
    if v.pre ≠ [] then { v with metadata := ([] : Str), pre := ([] : Str) }
    else { v with metadata := ([] : Str), pre := ([] : Str),
                  patch := (v.patch + 1) % 2 ^ 64 }
  let vNext2 := { vNext with original := v.originalVPref ++ vNext.String }
  (vNext2, vNext2)

/-- `func (v *Class) IncMinor() Class`; same pointer-aliasing modelling as
`Class.IncPatch`. -/
def Class.IncMinor (v : Class) : Class × Class :=
  let vNext := { v with metadata := ([] : Str), pre := ([] : Str),
                        patch := 0, minor := (v.minor + 1) % 2 ^ 64 }
  let vNext2 := { vNext with original := v.originalVPref ++ vNext.String }
  (vNext2, vNext2)

/-- `func (v *Class) IncMajor() Class`; same pointer-aliasing modelling as
`Class.IncPatch`. -/
def Class.IncMajor (v : Class) : Class × Class :=
  let vNext := { v with metadata := ([] : Str), pre := ([] : Str),
                        patch := 0, minor := 0, major := (v.major + 1) % 2 ^ 64 }
  let vNext2 := { vNext with original := v.originalVPref ++ vNext.String }
  (vNext2, vNext2)

/-- `func (v *Class) SetPrerelease(prerelease string) (Class, error)`; same
pointer-aliasing modelling as `Class.IncPatch`. The result is
`(receiver state after the call, returned Class value, returned error)`. On a
validation failure the function returns before any field is written. -/
def Class.SetPrerelease (v : Class) (prerelease : Str) :
    Class × Class × Option VErr :=
  match (if prerelease.length > 0 then validatePrerelease prerelease else none) with
  | some e => (v, v, some e)
  | none =>
    let vNext := { v with pre := prerelease }
    let vNext2 := { vNext with original := v.originalVPref ++ vNext.String }
    (vNext2, vNext2, none)

/-- `func (v *Class) SetMetadata(metadata string) (Class, error)`; same shape
as `Class.SetPrerelease`. -/
def Class.SetMetadata (v : Class) (metadata : Str) :
    Class × Class × Option VErr :=
  match (if metadata.length > 0 then validateMetadata metadata else none) with
  | some e => (v, v, some e)
  | none =>
    let vNext := { v with metadata := metadata }
    let vNext2 := { vNext with original := v.originalVPref ++ vNext.String }
    (vNext2, vNext2, none)

/-- `compareSegment(v, o uint64) int`. -/
def compareSegment (v o : Nat) : Int :=
  if v < o then -1 else if v > o then 1 else 0

/-- Go's `s < o` on strings: byte-wise lexicographic comparison. On the
ASCII-only identifier strings compared here, byte order, codepoint order and
`Char.toNat` order coincide (and UTF-8 byte order equals codepoint order in
general). -/
def goStringLt : Str → Str → Bool
  | [], [] => false
  | [], _ :: _ => true
  | _ :: _, [] => false
  | a :: as, b :: bs => if a = b then goStringLt as bs else decide (a.toNat < b.toNat)

/-- Go's `s > o` on strings. -/
def goStringGt (s o : Str) : Bool := goStringLt o s

/-- `comparePrePart(s, o string) int`: equal strings are equal; an empty
placeholder is lower than a non-empty identifier; then `ParseUint` classifies
each side as numeric or alphanumeric — two strings compare with Go `>`, a
number is lower than a string, two numbers compare numerically. (`n1`/`n2` in
the source are the `ParseUint` errors of `o`/`s`.) -/
def comparePrePart (s o : Str) : Int :=
  if s = o then 0
  else if s = [] then (if o ≠ [] then -1 else 1)
  else if o = [] then (if s ≠ [] then 1 else -1)
  else
    match parseUint64 o, parseUint64 s with
    | none, none => if goStringGt s o then 1 else -1
    | none, some _ => -1
    | some _, none => 1
    | some oi, some si => if si > oi then 1 else -1

/-- Tail of the `comparePrerelease` loop once the `o` side has run out: each
remaining `s` part is compared against the `""` placeholder. -/
def comparePreTailS : List Str → Int
  | [] => 0
  | s :: ss =>
    let d := comparePrePart s []
    if d ≠ 0 then d else comparePreTailS ss

/-- Tail of the `comparePrerelease` loop once the `s` side has run out: the
`""` placeholder is compared against each remaining `o` part. -/
def comparePreTailO : List Str → Int
  | [] => 0
  | o :: os =>
    let d := comparePrePart [] o
    if d ≠ 0 then d else comparePreTailO os

/-- The position-by-position loop of `comparePrerelease` over the two split
identifier lists, with `""` placeholders past the shorter list's end; the
first non-zero `comparePrePart` decides. -/
def comparePreLists : List Str → List Str → Int
  | [], os => comparePreTailO os
  | s :: ss, [] => comparePreTailS (s :: ss)
  | s :: ss, o :: os =>
    let d := comparePrePart s o
    if d ≠ 0 then d else comparePreLists ss os

/-- `comparePrerelease(v, o string) int`: split both on `.` and run the loop. -/
def comparePrerelease (v o : Str) : Int :=
  comparePreLists (splitAll '.' v) (splitAll '.' o)

/-- `func (v *Class) Compare(o *Class) int`: major, minor, patch, then
prerelease (absent prerelease is higher); build metadata is ignored. -/
def Class.Compare (v o : Class) : Int :=
  let d1 := compareSegment v.major o.major
  if d1 ≠ 0 then d1
  else
    let d2 := compareSegment v.minor o.minor
    if d2 ≠ 0 then d2
    else
      let d3 := compareSegment v.patch o.patch
      if d3 ≠ 0 then d3
      else
        let ps := v.pre
        let po := o.pre
        if ps = [] ∧ po = [] then 0
        else if ps = [] then 1
        else if po = [] then -1
        else comparePrerelease ps po

/-- `func (v *Class) LessThan(o *Class) bool`. -/
def Class.LessThan (v o : Class) : Bool := v.Compare o < 0

/-- `func (v *Class) GreaterThan(o *Class) bool`. -/
def Class.GreaterThan (v o : Class) : Bool := v.Compare o > 0

/-- `func (v *Class) Equal(o *Class) bool`. -/
def Class.Equal (v o : Class) : Bool := v.Compare o = 0

/-- The dynamic value handed to `Scan` (`value interface{}`): either a Go
string or some non-string value (for which the type assertion
`value.(string)` yields `""` with `ok` ignored). -/
inductive GoValue where
  | strVal (s : Str)
  | nonString

/-- `func (v *Class) UnmarshalJSON(b []byte) error`. The external
`json.Unmarshal(b, &s)` step is modelled by its outcome `decoded`: `none` is a
JSON decoding failure, `some s` the decoded string. On success all six fields
of the receiver are assigned from the freshly parsed value; on any failure the
function returns before writing a field. Result:
`(receiver state after the call, returned error)`. -/
def Class.UnmarshalJSON (v : Class) (decoded : Option Str) :
    Class × Option VErr :=
  match decoded with
  | none => (v, some VErr.jsonError)
  | some s =>
    match New s with
    | Except.error e => (v, some e)
    | Except.ok temp => (temp, none)

/-- `func (v *Class) UnmarshalText(text []byte) error`: parses with `New` and
assigns `*v = *temp` on success. Result shape as in `Class.UnmarshalJSON`. -/
def Class.UnmarshalText (v : Class) (text : Str) : Class × Option VErr :=
  match New text with
  | Except.error e => (v, some e)
  | Except.ok temp => (temp, none)

/-- `func (v *Class) Scan(value interface{}) error`: `s, _ = value.(string)`
(a non-string value silently yields `""`), then as `UnmarshalJSON`'s tail. -/
def Class.Scan (v : Class) (value : GoValue) : Class × Option VErr :=
  let s := match value with | GoValue.strVal s => s | GoValue.nonString => []
  match New s with
  | Except.error e => (v, some e)
  | Except.ok temp => (temp, none)

/-! ### Character-level helper lemmas -/

theorem uint32ToNat_inj {a b : UInt32} (h : a.toNat = b.toNat) : a = b := by
  cases a; cases b; congr 1; exact BitVec.eq_of_toNat_eq h

theorem charToNat_inj {a b : Char} (h : a.toNat = b.toNat) : a = b :=
  Char.eq_of_val_eq (uint32ToNat_inj h)

theorem numChars_explicit :
    numChars = ['0', '1', '2', '3', '4', '5', '6', '7', '8', '9'] := rfl

theorem digit_cases {c : Char} (h : isDigitC c = true) :
    c = '0' ∨ c = '1' ∨ c = '2' ∨ c = '3' ∨ c = '4' ∨
    c = '5' ∨ c = '6' ∨ c = '7' ∨ c = '8' ∨ c = '9' := by
  have h' : c ∈ numChars := by
    simpa [isDigitC] using h
  rw [numChars_explicit] at h'
  simpa using h'

theorem digitChar_digitVal {c : Char} (h : isDigitC c = true) :
    digitChar (digitVal c) = c := by
  rcases digit_cases h with rfl|rfl|rfl|rfl|rfl|rfl|rfl|rfl|rfl|rfl <;> rfl

theorem digitVal_lt_10 {c : Char} (h : isDigitC c = true) : digitVal c < 10 := by
  rcases digit_cases h with rfl|rfl|rfl|rfl|rfl|rfl|rfl|rfl|rfl|rfl <;> decide

theorem isDigitC_digitChar {d : Nat} (h : d < 10) : isDigitC (digitChar d) = true := by
  interval_cases d <;> decide

theorem digitVal_digitChar {d : Nat} (h : d < 10) : digitVal (digitChar d) = d := by
  interval_cases d <;> decide

theorem digitVal_pos {c : Char} (h : isDigitC c = true) (h0 : c ≠ '0') :
    1 ≤ digitVal c := by
  rcases digit_cases h with rfl|rfl|rfl|rfl|rfl|rfl|rfl|rfl|rfl|rfl
  · exact absurd rfl h0
  all_goals decide

/-! ### Lexicographic comparison lemmas -/

theorem goStringLt_asymm : ∀ s o : Str, goStringLt s o = true → goStringLt o s = false := by
  intro s
  induction s with
  | nil =>
    intro o h
    cases o with
    | nil => simpa [goStringLt] using h
    | cons b bs => rfl
  | cons a as ih =>
    intro o h
    cases o with
    | nil => simp [goStringLt] at h
    | cons b bs =>
      simp only [goStringLt] at h ⊢
      by_cases hab : a = b
      · rw [if_pos hab] at h
        rw [if_pos hab.symm]
        subst hab
        exact ih bs h
      · rw [if_neg hab] at h
        rw [if_neg (fun hba => hab hba.symm)]
        simp only [decide_eq_true_eq] at h
        simp only [decide_eq_false_iff_not]
        omega

theorem goStringLt_total : ∀ s o : Str, s ≠ o →
    goStringLt s o = true ∨ goStringLt o s = true := by
  intro s
  induction s with
  | nil =>
    intro o h
    cases o with
    | nil => exact absurd rfl h
    | cons b bs => left; rfl
  | cons a as ih =>
    intro o h
    cases o with
    | nil => right; rfl
    | cons b bs =>
      by_cases hab : a = b
      · subst hab
        have hne : as ≠ bs := fun he => h (by rw [he])
        rcases ih bs hne with h1 | h1
        · left; simp [goStringLt, h1]
        · right; simp [goStringLt, h1]
      · have hne : a.toNat ≠ b.toNat := fun he => hab (charToNat_inj he)
        by_cases hlt : a.toNat < b.toNat
        · left; simp [goStringLt, hab, hlt]
        · right
          have hba : b ≠ a := fun he => hab he.symm
          simp [goStringLt, hba]
          omega

/-! ### takeWhile / dropWhile on concatenations -/

/-- A rest string that cannot extend a `takeWhile p` run: empty, or starting
with a character violating `p`. -/
def stopsRun (p : Char → Bool) (ys : Str) : Prop :=
  ys = [] ∨ ∃ c t, ys = c :: t ∧ p c = false

theorem takeWhile_append_all {p : Char → Bool} :
    ∀ (xs ys : Str), (∀ x ∈ xs, p x = true) → stopsRun p ys →
      (xs ++ ys).takeWhile p = xs ∧ (xs ++ ys).dropWhile p = ys := by
  intro xs
  induction xs with
  | nil =>
    intro ys hxs hys
    rcases hys with rfl | ⟨c, t, rfl, hc⟩
    · exact ⟨rfl, rfl⟩
    · constructor
      · simp [List.takeWhile_cons, hc]
      · simp [List.dropWhile_cons, hc]
  | cons a as ih =>
    intro ys hxs hys
    have ha : p a = true := hxs a (by simp)
    obtain ⟨h1, h2⟩ := ih ys (fun x hx => hxs x (by simp [hx])) hys
    constructor
    · rw [List.cons_append, List.takeWhile_cons_of_pos ha, h1]
    · rw [List.cons_append, List.dropWhile_cons_of_pos ha, h2]

/-! ### Digit strings and decimal formatting -/

theorem digitsVal_append_last (xs : Str) (c : Char) :
    digitsVal (xs ++ [c]) = 10 * digitsVal xs + digitVal c := by
  simp [digitsVal, List.foldl_append]

theorem digitsVal_natToStr (n : Nat) : digitsVal (natToStr n) = n := by
  induction n using Nat.strong_induction_on with
  | _ n ih =>
    rw [natToStr_eq]
    by_cases h10 : n < 10
    · rw [if_pos h10]
      show digitsVal [digitChar n] = n
      simp [digitsVal, digitVal_digitChar h10]
    · rw [if_neg h10]
      rw [digitsVal_append_last]
      rw [ih (n / 10) (Nat.div_lt_self (by omega) (by omega))]
      rw [digitVal_digitChar (Nat.mod_lt n (by omega))]
      omega

theorem natToStr_ne_nil (n : Nat) : natToStr n ≠ [] := by
  rw [natToStr_eq]
  by_cases h : n < 10 <;> simp [h]

theorem natToStr_all_digits (n : Nat) : (natToStr n).all isDigitC = true := by
  induction n using Nat.strong_induction_on with
  | _ n ih =>
    rw [natToStr_eq]
    by_cases h10 : n < 10
    · rw [if_pos h10]
      simp [isDigitC_digitChar h10]
    · rw [if_neg h10]
      rw [List.all_append]
      have h1 := ih (n / 10) (Nat.div_lt_self (by omega) (by omega))
      have h2 := isDigitC_digitChar (Nat.mod_lt n (show 0 < 10 by omega))
      simp [h1, h2]

theorem foldl_digits_ge : ∀ (rest : Str) (acc : Nat),
    acc ≤ List.foldl (fun a c => 10 * a + digitVal c) acc rest := by
  intro rest
  induction rest with
  | nil => intro acc; exact Nat.le_refl acc
  | cons c cs ih =>
    intro acc
    calc acc ≤ 10 * acc + digitVal c := by omega
    _ ≤ _ := ih (10 * acc + digitVal c)

theorem digitsVal_pos_of_head_ne_zero (c : Char) (rest : Str)
    (hd : isDigitC c = true) (h0 : c ≠ '0') : 1 ≤ digitsVal (c :: rest) := by
  have h1 : digitsVal (c :: rest) =
      List.foldl (fun a ch => 10 * a + digitVal ch) (digitVal c) rest := by
    simp [digitsVal]
  rw [h1]
  calc 1 ≤ digitVal c := digitVal_pos hd h0
  _ ≤ _ := foldl_digits_ge rest (digitVal c)

theorem natToStr_digitsVal : ∀ ds : Str, ds ≠ [] → ds.all isDigitC = true →
    leadingZero ds = false → natToStr (digitsVal ds) = ds := by
  intro ds
  induction ds using List.reverseRecOn with
  | nil => intro h; exact absurd rfl h
  | append_singleton xs c ih =>
    intro _ hall hlz
    have hc : isDigitC c = true := by
      rw [List.all_append] at hall
      simp at hall
      exact hall.2
    have hcd : digitVal c < 10 := digitVal_lt_10 hc
    cases xs with
    | nil =>
      have : digitsVal [c] = digitVal c := by simp [digitsVal]
      rw [List.nil_append, this, natToStr_eq, if_pos hcd, digitChar_digitVal hc]
    | cons x0 rest =>
      have hxall : (x0 :: rest).all isDigitC = true := by
        rw [List.all_append] at hall
        simp at hall
        simp only [List.all_cons, Bool.and_eq_true, List.all_eq_true]
        exact ⟨hall.1.1, hall.1.2⟩
      have hx0 : isDigitC x0 = true := by
        simp only [List.all_cons, Bool.and_eq_true] at hxall
        exact hxall.1
      have hx00 : x0 ≠ '0' := by
        intro he
        subst he
        have ht : leadingZero ('0' :: rest ++ [c]) = true := by
          cases rest <;> rfl
        rw [ht] at hlz
        exact absurd hlz (by decide)
      have hV : 1 ≤ digitsVal (x0 :: rest) :=
        digitsVal_pos_of_head_ne_zero x0 rest hx0 hx00
      rw [digitsVal_append_last]
      have hge : ¬ (10 * digitsVal (x0 :: rest) + digitVal c < 10) := by omega
      rw [natToStr_eq, if_neg hge]
      have hdiv : (10 * digitsVal (x0 :: rest) + digitVal c) / 10 =
          digitsVal (x0 :: rest) := by omega
      have hmod : (10 * digitsVal (x0 :: rest) + digitVal c) % 10 = digitVal c := by
        omega
      rw [hdiv, hmod, digitChar_digitVal hc]
      rw [ih (by simp) hxall (by
        cases rest with
        | nil => rfl
        | cons y ys => simpa [leadingZero, List.cons_append] using hlz)]

theorem digits_inj (ds es : Str) (hd1 : ds ≠ []) (hd2 : ds.all isDigitC = true)
    (hd3 : leadingZero ds = false) (he1 : es ≠ []) (he2 : es.all isDigitC = true)
    (he3 : leadingZero es = false) (h : digitsVal ds = digitsVal es) : ds = es := by
  rw [← natToStr_digitsVal ds hd1 hd2 hd3, ← natToStr_digitsVal es he1 he2 he3, h]

/-! ### Splitting and joining lemmas -/

theorem splitFirst_of_not_mem (sep : Char) :
    ∀ s : Str, sep ∉ s → splitFirst sep s = none := by
  intro s
  induction s with
  | nil => intro _; rfl
  | cons c cs ih =>
    intro h
    have hc : ¬ (c = sep) := fun he => h (by simp [he])
    simp only [splitFirst]
    rw [if_neg hc, ih (fun hm => h (by simp [hm]))]
    rfl

theorem splitFirst_append_sep (sep : Char) : ∀ (a b : Str), sep ∉ a →
    splitFirst sep (a ++ sep :: b) = some (a, b) := by
  intro a
  induction a with
  | nil => intro b _; simp [splitFirst]
  | cons c cs ih =>
    intro b h
    have hc : ¬ (c = sep) := fun he => h (by simp [he])
    simp only [List.cons_append, splitFirst, List.append_eq]
    rw [if_neg hc, ih b (fun hm => h (by simp [hm]))]
    rfl

theorem splitFirst_decomp (sep : Char) :
    ∀ (s a b : Str), splitFirst sep s = some (a, b) → s = a ++ sep :: b := by
  intro s
  induction s with
  | nil => intro a b h; simp [splitFirst] at h
  | cons c cs ih =>
    intro a b h
    simp only [splitFirst] at h
    split at h
    · rename_i hc
      simp only [Option.some.injEq, Prod.mk.injEq] at h
      rw [← h.1, ← h.2, hc]
      rfl
    · rename_i hc
      match hm : splitFirst sep cs with
      | none => rw [hm] at h; simp at h
      | some (a', b') =>
        rw [hm] at h
        simp only [Option.map_some', Option.some.injEq, Prod.mk.injEq] at h
        have hd := ih a' b' hm
        rw [← h.1, ← h.2, List.cons_append, ← hd]

theorem splitAll_ne_nil (sep : Char) (s : Str) : splitAll sep s ≠ [] := by
  rw [splitAll_eq]
  cases hm : splitFirst sep s with
  | none => simp
  | some p => simp

theorem joinDot_cons_cons (x y : Str) (ys : List Str) :
    joinDot (x :: y :: ys) = x ++ '.' :: joinDot (y :: ys) := rfl

theorem joinDot_splitAll (s : Str) : joinDot (splitAll '.' s) = s := by
  suffices h : ∀ (n : Nat) (t : Str), t.length ≤ n → joinDot (splitAll '.' t) = t by
    exact h s.length s (le_refl _)
  intro n
  induction n with
  | zero =>
    intro t ht
    have hte : t = [] := List.eq_nil_of_length_eq_zero (by omega)
    subst hte
    rfl
  | succ n ih =>
    intro t ht
    rw [splitAll_eq]
    match hm : splitFirst '.' t with
    | none => rfl
    | some (a, b) =>
      have hd := splitFirst_decomp '.' t a b hm
      have hlt := splitFirst_snd_lt '.' t a b hm
      have hb := ih b (by omega)
      show joinDot (a :: splitAll '.' b) = t
      match hsb : splitAll '.' b with
      | [] => exact absurd hsb (splitAll_ne_nil '.' b)
      | y :: ys =>
        rw [joinDot_cons_cons]
        rw [hsb] at hb
        rw [hb, hd]

theorem splitAll_joinDot : ∀ (ids : List Str), ids ≠ [] →
    (∀ id ∈ ids, '.' ∉ id) → splitAll '.' (joinDot ids) = ids := by
  intro ids
  induction ids with
  | nil => intro h; exact absurd rfl h
  | cons x xs ih =>
    intro _ hdot
    cases xs with
    | nil =>
      show splitAll '.' (joinDot [x]) = [x]
      rw [show joinDot [x] = x from rfl]
      rw [splitAll_eq, splitFirst_of_not_mem '.' x (hdot x (by simp))]
    | cons y ys =>
      rw [joinDot_cons_cons]
      rw [splitAll_eq, splitFirst_append_sep '.' x (joinDot (y :: ys)) (hdot x (by simp))]
      show x :: splitAll '.' (joinDot (y :: ys)) = x :: y :: ys
      rw [ih (by simp) (fun id hid => hdot id (by simp [hid]))]

theorem not_dot_mem_of_identChars {idf : Str} (h : idf.all isIdentChar = true) :
    '.' ∉ idf := by
  intro hm
  have h2 := List.all_eq_true.mp h _ hm
  exact absurd h2 (by decide)

/-! ### Greedy parser lemmas -/

/-- A rest string on which the identifier-sequence match stops: empty, or
starting with a character that is neither `.` nor an identifier character
(such as `+`). -/
def tailStop (t : Str) : Prop :=
  t = [] ∨ ∃ c r, t = c :: r ∧ ¬ (c = '.') ∧ isIdentChar c = false

theorem tailStop_stopsRun {t : Str} (h : tailStop t) : stopsRun isIdentChar t := by
  rcases h with rfl | ⟨c, r, rfl, _, hc⟩
  · exact Or.inl rfl
  · exact Or.inr ⟨c, r, rfl, hc⟩

theorem moreIdents_stop (t : Str) (h : tailStop t) : moreIdents t = ([], t) := by
  rcases h with rfl | ⟨c, r, rfl, hc, _⟩
  · rfl
  · rw [moreIdents_eq, if_neg hc]

theorem moreIdents_join :
    ∀ (ids : List Str) (i : Str) (t : Str), i ≠ [] → i.all isIdentChar = true →
      (∀ id ∈ ids, id ≠ [] ∧ id.all isIdentChar = true) → tailStop t →
      moreIdents ('.' :: (joinDot (i :: ids) ++ t)) = (i :: ids, t) := by
  intro ids
  induction ids with
  | nil =>
    intro i t hi hia _ ht
    rw [moreIdents_eq, if_pos rfl]
    obtain ⟨h1, h2⟩ := takeWhile_append_all i t
      (fun x hx => List.all_eq_true.mp hia x hx) (tailStop_stopsRun ht)
    rw [show joinDot [i] = i from rfl, h1, h2, if_neg hi, moreIdents_stop t ht]
  | cons j js ih =>
    intro i t hi hia hids ht
    rw [moreIdents_eq, if_pos rfl]
    rw [joinDot_cons_cons]
    have hrw : (i ++ '.' :: joinDot (j :: js)) ++ t =
        i ++ ('.' :: (joinDot (j :: js) ++ t)) := by simp
    rw [hrw]
    obtain ⟨h1, h2⟩ := takeWhile_append_all i ('.' :: (joinDot (j :: js) ++ t))
      (fun x hx => List.all_eq_true.mp hia x hx)
      (Or.inr ⟨'.', _, rfl, by decide⟩)
    rw [h1, h2, if_neg hi]
    rw [ih j t (hids j (by simp)).1 (hids j (by simp)).2
      (fun id hid => hids id (by simp [hid])) ht]

theorem parseIdents_join (ids : List Str) (t : Str) (hne : ids ≠ [])
    (hids : ∀ id ∈ ids, id ≠ [] ∧ id.all isIdentChar = true) (ht : tailStop t) :
    parseIdents (joinDot ids ++ t) = some (ids, t) := by
  match ids, hne with
  | i :: is, _ =>
    have hi := (hids i (by simp)).1
    have hia := (hids i (by simp)).2
    cases is with
    | nil =>
      rw [show joinDot [i] = i from rfl]
      obtain ⟨h1, h2⟩ := takeWhile_append_all i t
        (fun x hx => List.all_eq_true.mp hia x hx) (tailStop_stopsRun ht)
      simp only [parseIdents, h1, h2, if_neg hi]
      rw [moreIdents_stop t ht]
    | cons j js =>
      rw [joinDot_cons_cons]
      have hrw : (i ++ '.' :: joinDot (j :: js)) ++ t =
          i ++ ('.' :: (joinDot (j :: js) ++ t)) := by simp
      rw [hrw]
      obtain ⟨h1, h2⟩ := takeWhile_append_all i ('.' :: (joinDot (j :: js) ++ t))
        (fun x hx => List.all_eq_true.mp hia x hx)
        (Or.inr ⟨'.', _, rfl, by decide⟩)
      simp only [parseIdents, h1, h2, if_neg hi]
      rw [moreIdents_join js j t (hids j (by simp)).1 (hids j (by simp)).2
        (fun id hid => hids id (by simp [hid])) ht]

theorem moreIdentsAux_props :
    ∀ (fuel : Nat) (s : Str), ∀ id ∈ (moreIdentsAux fuel s).1,
      id ≠ [] ∧ id.all isIdentChar = true := by
  intro fuel
  induction fuel with
  | zero => intro s id hid; simp [moreIdentsAux] at hid
  | succ fuel ih =>
    intro s id hid
    match s with
    | [] => simp [moreIdentsAux] at hid
    | c :: r =>
      simp only [moreIdentsAux] at hid
      by_cases hc : c = '.'
      · rw [if_pos hc] at hid
        by_cases he : r.takeWhile isIdentChar = []
        · rw [if_pos he] at hid; simp at hid
        · rw [if_neg he] at hid
          simp only [List.mem_cons] at hid
          rcases hid with rfl | hid
          · exact ⟨he, List.all_eq_true.mpr (fun x hx => List.mem_takeWhile_imp hx)⟩
          · exact ih (r.dropWhile isIdentChar) id hid
      · rw [if_neg hc] at hid; simp at hid

theorem parseIdents_props {s : Str} {ids : List Str} {rest : Str}
    (h : parseIdents s = some (ids, rest)) :
    ids ≠ [] ∧ ∀ id ∈ ids, id ≠ [] ∧ id.all isIdentChar = true := by
  simp only [parseIdents] at h
  by_cases he : s.takeWhile isIdentChar = []
  · rw [if_pos he] at h; simp at h
  · rw [if_neg he] at h
    simp only [Option.some.injEq, Prod.mk.injEq] at h
    obtain ⟨h1, h2⟩ := h
    constructor
    · rw [← h1]; simp
    · intro id hid
      rw [← h1] at hid
      simp only [List.mem_cons] at hid
      rcases hid with rfl | hid
      · exact ⟨he, List.all_eq_true.mpr (fun x hx => List.mem_takeWhile_imp hx)⟩
      · exact moreIdentsAux_props _ _ id hid

theorem matchMetaEnd_shape {majS : Str} {minorS patchS : Option Str} {preS : Str}
    {r : Str} {m : RegexMatch} (h : matchMetaEnd majS minorS patchS preS r = some m) :
    m.majS = majS ∧ m.minorS = minorS ∧ m.patchS = patchS ∧ m.preS = preS ∧
      (m.metaS = [] ∨ ∃ ids, m.metaS = joinDot ids ∧ ids ≠ [] ∧
        ∀ id ∈ ids, id ≠ [] ∧ id.all isIdentChar = true) := by
  match r with
  | [] =>
    simp only [matchMetaEnd, Option.some.injEq] at h
    rw [← h]
    exact ⟨rfl, rfl, rfl, rfl, Or.inl rfl⟩
  | c :: t =>
    simp only [matchMetaEnd] at h
    by_cases hc : c = '+'
    · rw [if_pos hc] at h
      match hp : parseIdents t with
      | none => rw [hp] at h; simp at h
      | some (ids, rest) =>
        simp only [hp] at h
        by_cases hr : rest = []
        · rw [if_pos hr] at h
          simp only [Option.some.injEq] at h
          rw [← h]
          obtain ⟨hne, hprops⟩ := parseIdents_props hp
          exact ⟨rfl, rfl, rfl, rfl, Or.inr ⟨ids, rfl, hne, hprops⟩⟩
        · rw [if_neg hr] at h; simp at h
    · rw [if_neg hc] at h; simp at h

theorem findStringSubmatch_pre_shape {s : Str} {m : RegexMatch}
    (h : findStringSubmatch s = some m) :
    (m.preS = [] ∨ ∃ ids, m.preS = joinDot ids ∧ ids ≠ [] ∧
      ∀ id ∈ ids, id ≠ [] ∧ id.all isIdentChar = true) ∧
    (m.metaS = [] ∨ ∃ ids, m.metaS = joinDot ids ∧ ids ≠ [] ∧
      ∀ id ∈ ids, id ≠ [] ∧ id.all isIdentChar = true) := by
  simp only [findStringSubmatch] at h
  by_cases hmaj : (stripV s).takeWhile isDigitC = []
  · rw [if_pos hmaj] at h; simp at h
  · rw [if_neg hmaj] at h
    match hpa : (parseNumGroup (parseNumGroup
        ((stripV s).dropWhile isDigitC)).2).2 with
    | [] =>
      simp only [hpa] at h
      obtain ⟨_, _, _, hpre, hmeta⟩ := matchMetaEnd_shape h
      exact ⟨by rw [hpre]; exact Or.inl rfl, hmeta⟩
    | c :: t =>
      simp only [hpa] at h
      by_cases hc : c = '-'
      · rw [if_pos hc] at h
        match hp : parseIdents t with
        | none => rw [hp] at h; simp at h
        | some (ids, r4) =>
          simp only [hp] at h
          obtain ⟨_, _, _, hpre, hmeta⟩ := matchMetaEnd_shape h
          obtain ⟨hne, hprops⟩ := parseIdents_props hp
          exact ⟨by rw [hpre]; exact Or.inr ⟨ids, rfl, hne, hprops⟩, hmeta⟩
      · rw [if_neg hc] at h
        obtain ⟨_, _, _, hpre, hmeta⟩ := matchMetaEnd_shape h
        exact ⟨by rw [hpre]; exact Or.inl rfl, hmeta⟩

/-! ### Comparison lemmas -/

theorem parseUint64_some {s : Str} {n : Nat} (h : parseUint64 s = some n) :
    s ≠ [] ∧ s.all isDigitC = true ∧ digitsVal s < 2 ^ 64 ∧ n = digitsVal s := by
  simp only [parseUint64] at h
  split at h
  · rename_i hcond
    simp only [Option.some.injEq] at h
    exact ⟨hcond.1, hcond.2.1, hcond.2.2, h.symm⟩
  · simp at h

theorem comparePrePart_self (s : Str) : comparePrePart s s = 0 := by
  simp [comparePrePart]

theorem comparePrePart_ne {s o : Str} (h : ¬ (s = o)) :
    comparePrePart s o = 1 ∨ comparePrePart s o = -1 := by
  simp only [comparePrePart, if_neg h]
  by_cases hs : s = []
  · rw [if_pos hs]
    by_cases ho : o ≠ []
    · rw [if_pos ho]; right; rfl
    · rw [if_neg ho]; left; rfl
  · rw [if_neg hs]
    by_cases ho : o = []
    · rw [if_pos ho]
      rw [if_pos hs]
      left; rfl
    · rw [if_neg ho]
      cases h1 : parseUint64 o <;> cases h2 : parseUint64 s
      · by_cases hg : goStringGt s o
        · left; simp [hg]
        · right; simp [hg]
      · right; rfl
      · left; rfl
      · rename_i oi si
        by_cases hgt : si > oi
        · left; simp [hgt]
        · right; simp [hgt]

theorem comparePrePart_zero_iff (s o : Str) : comparePrePart s o = 0 ↔ s = o := by
  constructor
  · intro h
    by_contra hne
    rcases comparePrePart_ne hne with h1 | h1 <;> rw [h1] at h <;> exact absurd h (by decide)
  · intro h; rw [h]; exact comparePrePart_self o

theorem comparePrePart_nil_left {o : Str} (ho : o ≠ []) : comparePrePart [] o = -1 := by
  have hne : ¬ (([] : Str) = o) := fun he => ho he.symm
  simp [comparePrePart, hne, ho]

theorem comparePrePart_nil_right {s : Str} (hs : s ≠ []) : comparePrePart s [] = 1 := by
  simp [comparePrePart, hs]

theorem comparePrePart_empty_antisym (o : Str) :
    comparePrePart [] o = -(comparePrePart o []) := by
  by_cases ho : o = []
  · subst ho; rw [comparePrePart_self]; simp
  · rw [comparePrePart_nil_left ho, comparePrePart_nil_right ho]

theorem containsOnly_num_eq_all (s : Str) :
    containsOnly s numChars = s.all isDigitC := rfl

theorem comparePrePart_antisym (s o : Str)
    (hs : containsOnly s numChars = true → leadingZero s = false)
    (ho : containsOnly o numChars = true → leadingZero o = false) :
    comparePrePart s o = -(comparePrePart o s) := by
  by_cases he : s = o
  · subst he; rw [comparePrePart_self]; simp
  · have he' : ¬ (o = s) := fun h => he h.symm
    by_cases hsn : s = []
    · subst hsn; exact comparePrePart_empty_antisym o
    · by_cases hon : o = []
      · subst hon
        rw [comparePrePart_empty_antisym s]
        omega
      · simp only [comparePrePart, if_neg he, if_neg he', if_neg hsn, if_neg hon]
        cases h1 : parseUint64 o with
        | none =>
          cases h2 : parseUint64 s with
          | none =>
            dsimp only
            rcases goStringLt_total s o he with hg | hg
            · have hg2 := goStringLt_asymm s o hg
              simp only [goStringGt, hg, hg2]
              decide
            · have hg2 := goStringLt_asymm o s hg
              simp only [goStringGt, hg, hg2]
              decide
          | some si => dsimp only
        | some oi =>
          cases h2 : parseUint64 s with
          | none => dsimp only; decide
          | some si =>
            dsimp only
            obtain ⟨ho1, ho2, ho3, ho4⟩ := parseUint64_some h1
            obtain ⟨hs1, hs2, hs3, hs4⟩ := parseUint64_some h2
            have hlzs : leadingZero s = false :=
              hs (by rw [containsOnly_num_eq_all]; exact hs2)
            have hlzo : leadingZero o = false :=
              ho (by rw [containsOnly_num_eq_all]; exact ho2)
            have hne : ¬ (si = oi) := by
              intro hv
              exact he (digits_inj s o hs1 hs2 hlzs ho1 ho2 hlzo (by omega))
            by_cases hgt : si > oi
            · rw [if_pos hgt, if_neg (show ¬ (oi > si) by omega)]
              decide
            · rw [if_neg hgt, if_pos (show oi > si by omega)]

theorem comparePreTail_antisym : ∀ l : List Str,
    comparePreTailO l = -(comparePreTailS l) := by
  intro l
  induction l with
  | nil => rfl
  | cons o os ih =>
    simp only [comparePreTailO, comparePreTailS]
    rw [comparePrePart_empty_antisym o]
    by_cases hd : comparePrePart o [] = 0
    · rw [hd]
      simpa using ih
    · rw [if_pos (show -(comparePrePart o []) ≠ 0 by omega), if_pos hd]

theorem comparePreLists_antisym : ∀ (l1 l2 : List Str),
    (∀ id ∈ l1, containsOnly id numChars = true → leadingZero id = false) →
    (∀ id ∈ l2, containsOnly id numChars = true → leadingZero id = false) →
    comparePreLists l1 l2 = -(comparePreLists l2 l1) := by
  intro l1
  induction l1 with
  | nil =>
    intro l2 _ _
    cases l2 with
    | nil => rfl
    | cons o os =>
      show comparePreTailO (o :: os) = -(comparePreTailS (o :: os))
      exact comparePreTail_antisym (o :: os)
  | cons s ss ih =>
    intro l2 h1 h2
    cases l2 with
    | nil =>
      show comparePreTailS (s :: ss) = -(comparePreTailO (s :: ss))
      rw [comparePreTail_antisym (s :: ss)]
      omega
    | cons o os =>
      simp only [comparePreLists]
      rw [comparePrePart_antisym s o (h1 s (by simp)) (h2 o (by simp))]
      by_cases hd : comparePrePart o s = 0
      · rw [hd]
        have hih := ih os (fun id hid => h1 id (by simp [hid]))
          (fun id hid => h2 id (by simp [hid]))
        simpa using hih
      · rw [if_pos (show -(comparePrePart o s) ≠ 0 by omega), if_pos hd]

theorem comparePreLists_self : ∀ l : List Str, comparePreLists l l = 0 := by
  intro l
  induction l with
  | nil => rfl
  | cons x xs ih =>
    have h : comparePreLists (x :: xs) (x :: xs) =
        (if comparePrePart x x ≠ 0 then comparePrePart x x
         else comparePreLists xs xs) := rfl
    rw [h, comparePrePart_self]
    simpa using ih

theorem comparePreLists_proper_prefix :
    ∀ (l : List Str) (e : Str) (rest : List Str), e ≠ [] →
      comparePreLists l (l ++ e :: rest) = -1 := by
  intro l
  induction l with
  | nil =>
    intro e rest he
    show comparePreTailO (e :: rest) = -1
    simp only [comparePreTailO]
    rw [comparePrePart_nil_left he]
    rfl
  | cons x xs ih =>
    intro e rest he
    have h : comparePreLists (x :: xs) (x :: (xs ++ e :: rest)) =
        (if comparePrePart x x ≠ 0 then comparePrePart x x
         else comparePreLists xs (xs ++ e :: rest)) := rfl
    rw [List.cons_append, h, comparePrePart_self]
    simpa using ih e rest he

theorem comparePreLists_zero_imp_eq :
    ∀ (l1 l2 : List Str), (∀ id ∈ l1, id ≠ []) → (∀ id ∈ l2, id ≠ []) →
      comparePreLists l1 l2 = 0 → l1 = l2 := by
  intro l1
  induction l1 with
  | nil =>
    intro l2 _ h2 h
    cases l2 with
    | nil => rfl
    | cons o os =>
      exfalso
      simp only [comparePreLists, comparePreTailO] at h
      rw [comparePrePart_nil_left (h2 o (by simp))] at h
      simp at h
  | cons s ss ih =>
    intro l2 h1 h2 h
    cases l2 with
    | nil =>
      exfalso
      simp only [comparePreLists, comparePreTailS] at h
      rw [comparePrePart_nil_right (h1 s (by simp))] at h
      simp at h
    | cons o os =>
      simp only [comparePreLists] at h
      by_cases hd : comparePrePart s o = 0
      · have hso := (comparePrePart_zero_iff s o).mp hd
        subst hso
        rw [hd] at h
        simp only [ne_eq, not_true_eq_false, if_false] at h
        rw [ih os (fun id hid => h1 id (by simp [hid]))
          (fun id hid => h2 id (by simp [hid])) h]
      · rw [if_pos hd] at h
        exact absurd h hd

theorem compareSegment_self (n : Nat) : compareSegment n n = 0 := by
  simp [compareSegment]

theorem compareSegment_antisym (x y : Nat) :
    compareSegment x y = -(compareSegment y x) := by
  simp only [compareSegment]
  rcases Nat.lt_trichotomy x y with h | h | h
  · simp [h, show ¬ (y < x) by omega]
  · subst h
    simp
  · simp [h, show ¬ (x < y) by omega]

theorem compareSegment_zero_iff (x y : Nat) : compareSegment x y = 0 ↔ x = y := by
  simp only [compareSegment]
  rcases Nat.lt_trichotomy x y with h | h | h
  · rw [if_pos h]
    constructor
    · intro hc; exact absurd hc (by decide)
    · intro hc; omega
  · subst h
    rw [if_neg (show ¬ (x < x) by omega), if_neg (show ¬ (x > x) by omega)]
    simp
  · rw [if_neg (show ¬ (x < y) by omega), if_pos (show x > y by omega)]
    constructor
    · intro hc; exact absurd hc (by decide)
    · intro hc; omega

/-! ### Compare at the Class level -/

theorem class_compare_self (v : Class) : v.Compare v = 0 := by
  simp only [Class.Compare, compareSegment_self]
  by_cases hp : v.pre = []
  · simp [hp]
  · simp [hp, comparePrerelease, comparePreLists_self]

theorem class_compare_antisym (a b : Class)
    (ha : ∀ id ∈ splitAll '.' a.pre,
      containsOnly id numChars = true → leadingZero id = false)
    (hb : ∀ id ∈ splitAll '.' b.pre,
      containsOnly id numChars = true → leadingZero id = false) :
    a.Compare b = -(b.Compare a) := by
  simp only [Class.Compare]
  by_cases h1 : compareSegment a.major b.major = 0
  · have h1' : compareSegment b.major a.major = 0 := by
      rw [compareSegment_antisym]; omega
    rw [h1, h1']
    simp only [ne_eq, not_true_eq_false, if_false]
    by_cases h2 : compareSegment a.minor b.minor = 0
    · have h2' : compareSegment b.minor a.minor = 0 := by
        rw [compareSegment_antisym]; omega
      rw [h2, h2']
      simp only [ne_eq, not_true_eq_false, if_false]
      by_cases h3 : compareSegment a.patch b.patch = 0
      · have h3' : compareSegment b.patch a.patch = 0 := by
          rw [compareSegment_antisym]; omega
        rw [h3, h3']
        simp only [ne_eq, not_true_eq_false, if_false]
        by_cases hpa : a.pre = [] <;> by_cases hpb : b.pre = []
        · simp [hpa, hpb]
        · simp [hpa, hpb]
        · simp [hpa, hpb]
        · simp only [hpa, hpb, false_and, and_false, if_false, if_neg hpa,
            if_neg hpb, comparePrerelease]
          exact comparePreLists_antisym (splitAll '.' a.pre) (splitAll '.' b.pre) ha hb
      · have h3' : compareSegment b.patch a.patch ≠ 0 := by
          rw [compareSegment_antisym]; omega
        rw [if_pos h3, if_pos h3']
        exact compareSegment_antisym a.patch b.patch
    · have h2' : compareSegment b.minor a.minor ≠ 0 := by
        rw [compareSegment_antisym]; omega
      rw [if_pos h2, if_pos h2']
      exact compareSegment_antisym a.minor b.minor
  · have h1' : compareSegment b.major a.major ≠ 0 := by
      rw [compareSegment_antisym]; omega
    rw [if_pos h1, if_pos h1']
    exact compareSegment_antisym a.major b.major

theorem class_compare_zero_iff (a b : Class)
    (ha : a.pre ≠ [] → ∀ id ∈ splitAll '.' a.pre, id ≠ [])
    (hb : b.pre ≠ [] → ∀ id ∈ splitAll '.' b.pre, id ≠ []) :
    a.Compare b = 0 ↔
      a.major = b.major ∧ a.minor = b.minor ∧ a.patch = b.patch ∧ a.pre = b.pre := by
  constructor
  · intro h
    simp only [Class.Compare] at h
    by_cases h1 : compareSegment a.major b.major = 0
    · rw [h1] at h
      simp only [ne_eq, not_true_eq_false, if_false] at h
      by_cases h2 : compareSegment a.minor b.minor = 0
      · rw [h2] at h
        simp only [ne_eq, not_true_eq_false, if_false] at h
        by_cases h3 : compareSegment a.patch b.patch = 0
        · rw [h3] at h
          simp only [ne_eq, not_true_eq_false, if_false] at h
          refine ⟨(compareSegment_zero_iff _ _).mp h1,
            (compareSegment_zero_iff _ _).mp h2,
            (compareSegment_zero_iff _ _).mp h3, ?_⟩
          by_cases hpa : a.pre = [] <;> by_cases hpb : b.pre = []
          · rw [hpa, hpb]
          · rw [if_neg (by simp [hpa, hpb]), if_pos hpa] at h
            exact absurd h (by decide)
          · rw [if_neg (by simp [hpa, hpb]), if_neg hpa, if_pos hpb] at h
            exact absurd h (by decide)
          · rw [if_neg (by simp [hpa, hpb]), if_neg hpa, if_neg hpb] at h
            simp only [comparePrerelease] at h
            have hls := comparePreLists_zero_imp_eq (splitAll '.' a.pre)
              (splitAll '.' b.pre) (ha hpa) (hb hpb) h
            have := joinDot_splitAll a.pre
            rw [← this, hls, joinDot_splitAll b.pre]
        · rw [if_pos h3] at h
          exact absurd h h3
      · rw [if_pos h2] at h
        exact absurd h h2
    · rw [if_pos h1] at h
      exact absurd h h1
  · intro ⟨h1, h2, h3, h4⟩
    simp only [Class.Compare, h1, h2, h3, h4, compareSegment_self]
    by_cases hp : b.pre = []
    · simp [hp]
    · simp [hp, comparePrerelease, comparePreLists_self]

/-! ### Inversion lemmas for the parsers and setters -/

theorem validatePreList_no_lz : ∀ l : List Str, validatePreList l = none →
    ∀ id ∈ l, containsOnly id numChars = true → leadingZero id = false := by
  intro l
  induction l with
  | nil => intro _ id hid; simp at hid
  | cons p rest ih =>
    intro h id hid hnum
    simp only [validatePreList] at h
    by_cases hp : containsOnly p numChars = true
    · rw [if_pos hp] at h
      by_cases hlz : leadingZero p = true
      · rw [if_pos hlz] at h; simp at h
      · rw [if_neg hlz] at h
        rcases List.mem_cons.mp hid with rfl | hid2
        · simpa using hlz
        · exact ih h id hid2 hnum
    · rw [if_neg hp] at h
      by_cases hall : ¬ containsOnly p allowedChars = true
      · rw [if_pos hall] at h; simp at h
      · rw [if_neg hall] at h
        rcases List.mem_cons.mp hid with rfl | hid2
        · exact absurd hnum hp
        · exact ih h id hid2 hnum

theorem New_ok_inv {s : Str} {c : Class} (h : New s = Except.ok c) :
    ∃ m, findStringSubmatch s = some m ∧ c.pre = m.preS ∧ c.metadata = m.metaS ∧
      (m.preS ≠ [] → validatePrerelease m.preS = none) ∧
      (m.metaS ≠ [] → validateMetadata m.metaS = none) ∧ c.original = s := by
  simp only [New] at h
  match hm : findStringSubmatch s with
  | none => rw [hm] at h; simp at h
  | some m =>
    simp only [hm] at h
    refine ⟨m, rfl, ?_⟩
    match h1 : parseUint64 m.majS, h2 : parseOptSeg m.minorS,
        h3 : parseOptSeg m.patchS with
    | some major, some minor, some patch =>
      simp only [h1, h2, h3] at h
      match hv : (if m.preS ≠ [] then validatePrerelease m.preS else none) with
      | some e => rw [hv] at h; simp at h
      | none =>
        simp only [hv] at h
        match hw : (if m.metaS ≠ [] then validateMetadata m.metaS else none) with
        | some e => rw [hw] at h; simp at h
        | none =>
          simp only [hw, Except.ok.injEq] at h
          subst h
          refine ⟨rfl, rfl, ?_, ?_, rfl⟩
          · intro hne
            rw [if_pos hne] at hv
            exact hv
          · intro hne
            rw [if_pos hne] at hw
            exact hw
    | none, _, _ => simp only [h1] at h; simp at h
    | some _, none, _ =>
      rename_i hx
      simp only [h1, h2] at h
      simp at h
    | some _, some _, none =>
      simp only [h1, h2, h3] at h
      simp at h

theorem of_if_validate {p : Str}
    (hv : (if p ≠ [] then validatePrerelease p else none) = none) :
    p = [] ∨ validatePrerelease p = none := by
  by_cases hp : p = []
  · exact Or.inl hp
  · rw [if_pos hp] at hv
    exact Or.inr hv

theorem StrictNew_ok_pre {s : Str} {c : Class} (h : StrictNew s = Except.ok c) :
    c.pre = [] ∨ validatePrerelease c.pre = none := by
  simp only [StrictNew] at h
  repeat' split at h
  any_goals exact Except.noConfusion h
  all_goals simp only [Except.ok.injEq] at h
  all_goals subst h
  all_goals dsimp only
  all_goals first
    | tauto
    | (apply of_if_validate; assumption)

/-! ## Claim theorems -/

/-- C2 (counterexample): the claim says lenient parse rejects "01.2.3", but
`New` accepts it, coercing it to version 1.2.3. -/
theorem C2_counterexample :
    New (str "01.2.3") = Except.ok ⟨1, 2, 3, [], [], str "01.2.3"⟩ := by decide

/-- C2 (amended): strict parse rejects "1.2" with `ErrInvalidSemVer` (wrong
segment count) and "01.2.3" with `ErrSegmentStartsZero`; lenient parse accepts
"1.2" as version 1.2.0, but it also accepts "01.2.3" (as 1.2.3) - leading
zeros in the numeric segments pass the lenient grammar; the leading-zero forms
lenient parse does reject are numeric prerelease identifiers, e.g. "1.2.3-01"
fails with `ErrSegmentStartsZero`. -/
theorem C2_parse_modes :
    StrictNew (str "1.2") = Except.error VErr.invalidSemVer ∧
    StrictNew (str "01.2.3") = Except.error VErr.segmentStartsZero ∧
    New (str "1.2") = Except.ok ⟨1, 2, 0, [], [], str "1.2"⟩ ∧
    New (str "01.2.3") = Except.ok ⟨1, 2, 3, [], [], str "01.2.3"⟩ ∧
    New (str "1.2.3-01") = Except.error VErr.segmentStartsZero := by
  exact ⟨by decide, by decide, by decide, by decide, by decide⟩

/-- C3 (counterexample): `IncPatch` does not leave the receiver's fields as
they were: on the version 1.2.3 (built by `NewByArgs`) the receiver afterwards
holds 1.2.4, because `vNext := v` copies the receiver pointer and every field
write goes through it. -/
theorem C3_counterexample :
    ((NewByArgs 1 2 3 [] []).IncPatch).1 ≠ NewByArgs 1 2 3 [] [] := by decide

/-- C3 (amended): every derivation operation produces a new version value and
returns it, but through the aliased receiver pointer it also overwrites the
receiver with that same value: after the call the receiver equals the returned
version (on the setter validation-error path both equal the untouched
original), rather than keeping its previous fields. -/
theorem C3_receiver_equals_result (v : Class) (p m : Str) :
    (v.IncPatch).1 = (v.IncPatch).2 ∧
    (v.IncMinor).1 = (v.IncMinor).2 ∧
    (v.IncMajor).1 = (v.IncMajor).2 ∧
    (v.SetPrerelease p).1 = (v.SetPrerelease p).2.1 ∧
    (v.SetMetadata m).1 = (v.SetMetadata m).2.1 := by
  refine ⟨rfl, rfl, rfl, ?_, ?_⟩
  · simp only [Class.SetPrerelease]
    split <;> rfl
  · simp only [Class.SetMetadata]
    split <;> rfl

/-- C6: `IncPatch` on a version with a non-empty prerelease clears prerelease
and metadata and keeps major, minor and patch; with an empty prerelease it
clears metadata and increments patch by one (in uint64 arithmetic); in
particular 1.2.3-alpha becomes 1.2.3 and 1.2.3 becomes 1.2.4. -/
theorem C6_incPatch (v : Class) :
    (v.pre ≠ [] →
      (v.IncPatch).2.major = v.major ∧ (v.IncPatch).2.minor = v.minor ∧
      (v.IncPatch).2.patch = v.patch ∧ (v.IncPatch).2.pre = [] ∧
      (v.IncPatch).2.metadata = []) ∧
    (v.pre = [] →
      (v.IncPatch).2.major = v.major ∧ (v.IncPatch).2.minor = v.minor ∧
      (v.IncPatch).2.patch = (v.patch + 1) % 2 ^ 64 ∧ (v.IncPatch).2.pre = [] ∧
      (v.IncPatch).2.metadata = []) ∧
    New (str "1.2.3-alpha") = Except.ok ⟨1, 2, 3, str "alpha", [], str "1.2.3-alpha"⟩ ∧
    ((⟨1, 2, 3, str "alpha", [], str "1.2.3-alpha"⟩ : Class).IncPatch).2 =
      ⟨1, 2, 3, [], [], str "1.2.3"⟩ ∧
    New (str "1.2.3") = Except.ok ⟨1, 2, 3, [], [], str "1.2.3"⟩ ∧
    ((⟨1, 2, 3, [], [], str "1.2.3"⟩ : Class).IncPatch).2 =
      ⟨1, 2, 4, [], [], str "1.2.4"⟩ := by
  refine ⟨?_, ?_, by decide, by decide, by decide, by decide⟩
  · intro hp
    simp [Class.IncPatch, hp]
  · intro hp
    simp [Class.IncPatch, hp]

/-- Witness for C6 at the versions 1.2.3-alpha and 1.2.3. -/
theorem C6_incPatch_witness :
    ((⟨1, 2, 3, str "alpha", [], str "1.2.3-alpha"⟩ : Class).IncPatch).2.patch = 3 ∧
    ((⟨1, 2, 3, [], [], str "1.2.3"⟩ : Class).IncPatch).2.patch = (3 + 1) % 2 ^ 64 := by
  constructor
  · exact ((C6_incPatch ⟨1, 2, 3, str "alpha", [], str "1.2.3-alpha"⟩).1
      (by decide)).2.2.1
  · exact ((C6_incPatch ⟨1, 2, 3, [], [], str "1.2.3"⟩).2.1 rfl).2.2.1

/-- C9: `SetPrerelease("")` clears an existing prerelease and returns no
error; `SetPrerelease("01")` fails with `ErrSegmentStartsZero`; on any
validation failure `SetPrerelease`/`SetMetadata` return the original version
value unchanged (receiver and returned value) alongside the error. -/
theorem C9_setters (v : Class) (s : Str) :
    ((v.SetPrerelease []).2.2 = none ∧ (v.SetPrerelease []).2.1.pre = []) ∧
    ((v.SetPrerelease (str "01")).2.2 = some VErr.segmentStartsZero ∧
      (v.SetPrerelease (str "01")).1 = v ∧ (v.SetPrerelease (str "01")).2.1 = v) ∧
    (∀ e, s ≠ [] → validatePrerelease s = some e →
      v.SetPrerelease s = (v, v, some e)) ∧
    (∀ e, s ≠ [] → validateMetadata s = some e →
      v.SetMetadata s = (v, v, some e)) := by
  refine ⟨⟨rfl, rfl⟩, ⟨rfl, rfl, rfl⟩, ?_, ?_⟩
  · intro e hs he
    have hlen : s.length > 0 := by
      cases s with
      | nil => exact absurd rfl hs
      | cons c cs => simp
    simp [Class.SetPrerelease, if_pos hlen, he]
  · intro e hs he
    have hlen : s.length > 0 := by
      cases s with
      | nil => exact absurd rfl hs
      | cons c cs => simp
    simp [Class.SetMetadata, if_pos hlen, he]

/-- Witness for C9: a failing `SetPrerelease("01")` on the version 1.2.3
returns the untouched value and the leading-zero error. -/
theorem C9_setters_witness :
    (NewByArgs 1 2 3 [] []).SetPrerelease (str "01") =
      (NewByArgs 1 2 3 [] [], NewByArgs 1 2 3 [] [], some VErr.segmentStartsZero) := by
  exact (C9_setters (NewByArgs 1 2 3 [] []) (str "01")).2.2.1 VErr.segmentStartsZero
    (by decide) (by decide)

/-- C10: each deserialization entry point (`UnmarshalJSON`, `UnmarshalText`,
`Scan`) parses its input with the lenient parser `New` and is atomic: on any
failure the receiver is returned unchanged, on success the receiver equals the
parse result of the input string. -/
theorem C10_unmarshal (v : Class) (d : Option Str) (t : Str) (g : GoValue) :
    ((v.UnmarshalJSON d).2 ≠ none → (v.UnmarshalJSON d).1 = v) ∧
    (∀ s c, d = some s → New s = Except.ok c → v.UnmarshalJSON d = (c, none)) ∧
    ((v.UnmarshalText t).2 ≠ none → (v.UnmarshalText t).1 = v) ∧
    (∀ c, New t = Except.ok c → v.UnmarshalText t = (c, none)) ∧
    ((v.Scan g).2 ≠ none → (v.Scan g).1 = v) ∧
    (∀ s c, g = GoValue.strVal s → New s = Except.ok c → v.Scan g = (c, none)) := by
  refine ⟨?_, ?_, ?_, ?_, ?_, ?_⟩
  · intro h
    match d with
    | none => rfl
    | some s =>
      simp only [Class.UnmarshalJSON] at h ⊢
      match hn : New s with
      | Except.error e => simp [hn]
      | Except.ok c => simp [hn] at h
  · intro s c hd hc
    subst hd
    simp [Class.UnmarshalJSON, hc]
  · intro h
    simp only [Class.UnmarshalText] at h ⊢
    match hn : New t with
    | Except.error e => simp [hn]
    | Except.ok c => simp [hn] at h
  · intro c hc
    simp [Class.UnmarshalText, hc]
  · intro h
    match g with
    | GoValue.nonString => rfl
    | GoValue.strVal s =>
      simp only [Class.Scan] at h ⊢
      match hn : New s with
      | Except.error e => simp [hn]
      | Except.ok c => simp [hn] at h
  · intro s c hg hc
    subst hg
    simp [Class.Scan, hc]

/-- Witness for C10: a successful `UnmarshalJSON` of the decoded string
"1.2.3" replaces the receiver 9.9.9 by the parsed 1.2.3. -/
theorem C10_unmarshal_witness :
    (NewByArgs 9 9 9 [] []).UnmarshalJSON (some (str "1.2.3")) =
      (⟨1, 2, 3, [], [], str "1.2.3"⟩, none) := by
  exact (C10_unmarshal (NewByArgs 9 9 9 [] []) (some (str "1.2.3")) []
    GoValue.nonString).2.1 (str "1.2.3") ⟨1, 2, 3, [], [], str "1.2.3"⟩ rfl (by decide)

/-- C7 (counterexample): antisymmetry fails on the constructible pair
1.0.0-0 and 1.0.0-00 (`NewByArgs` does not validate): both directions of
`Compare` return -1, because the distinct identifiers "0" and "00" parse to
the same number and `comparePrePart` answers -1 for a numeric tie. -/
theorem C7_counterexample :
    ¬ ((NewByArgs 1 0 0 (str "0") []).Compare (NewByArgs 1 0 0 (str "00") []) =
      -((NewByArgs 1 0 0 (str "00") []).Compare (NewByArgs 1 0 0 (str "0") []))) := by
  decide

/-- C7 (amended): `Compare(v, v) = 0` for every version value; and
`Compare(a, b) = -Compare(b, a)` holds for all version pairs whose
purely-numeric prerelease identifiers carry no leading zero - which every
validated version satisfies (alphanumeric identifiers such as "0ab" are
unconstrained); unvalidated construction (`NewByArgs`) can produce aliased
numeric identifiers such as "0" versus "00" that break antisymmetry. -/
theorem C7_compare_refl_antisym :
    (∀ v : Class, v.Compare v = 0) ∧
    (∀ a b : Class,
      (∀ id ∈ splitAll '.' a.pre,
        containsOnly id numChars = true → leadingZero id = false) →
      (∀ id ∈ splitAll '.' b.pre,
        containsOnly id numChars = true → leadingZero id = false) →
      a.Compare b = -(b.Compare a)) :=
  ⟨fun v => class_compare_self v, fun a b ha hb => class_compare_antisym a b ha hb⟩

/-- Witness for C7 at 1.0.0-0ab versus 1.0.0-alpha.1: both are accepted by
the lenient parser (the alphanumeric identifier "0ab" may start with a zero),
and antisymmetry holds for them. -/
theorem C7_witness :
    New (str "1.0.0-0ab") = Except.ok ⟨1, 0, 0, str "0ab", [], str "1.0.0-0ab"⟩ ∧
    (⟨1, 0, 0, str "0ab", [], str "1.0.0-0ab"⟩ : Class).Compare
        ⟨1, 0, 0, str "alpha.1", [], str "1.0.0-alpha.1"⟩ =
      -((⟨1, 0, 0, str "alpha.1", [], str "1.0.0-alpha.1"⟩ : Class).Compare
        ⟨1, 0, 0, str "0ab", [], str "1.0.0-0ab"⟩) := by
  exact ⟨by decide, C7_compare_refl_antisym.2 _ _ (by decide) (by decide)⟩

/-- C1 (counterexample): 1.0.0-a and 1.0.0-a. are both accepted by StrictNew
with equal numeric parts and non-empty prereleases, and the identifier
sequence of the first (["a"]) is a proper prefix of that of the second
(["a", ""]), yet `Compare` returns 0 instead of ranking the shorter side
lower: the empty extension identifier compares equal to the loop's ""
placeholder. -/
theorem C1_counterexample :
    StrictNew (str "1.0.0-a") = Except.ok ⟨1, 0, 0, str "a", [], str "1.0.0-a"⟩ ∧
    StrictNew (str "1.0.0-a.") = Except.ok ⟨1, 0, 0, str "a.", [], str "1.0.0-a."⟩ ∧
    splitAll '.' (str "a") = [str "a"] ∧
    splitAll '.' (str "a.") = [str "a", []] ∧
    (⟨1, 0, 0, str "a", [], str "1.0.0-a"⟩ : Class).Compare
      ⟨1, 0, 0, str "a.", [], str "1.0.0-a."⟩ = 0 := by
  exact ⟨by decide, by decide, by decide, by decide, by decide⟩

/-- C1 (amended): for versions with equal major/minor/patch and non-empty
prereleases on both sides, if one prerelease identifier sequence is a proper
prefix of the other and the first extra identifier is non-empty (empty
identifiers - which StrictNew and SetPrerelease admit - compare equal to the
placeholder and defeat the rule), `Compare` ranks the version with fewer
identifiers lower; and the sample chain 1.0.0-alpha < 1.0.0-alpha.1 <
1.0.0-alpha.beta < 1.0.0-beta < 1.0.0-beta.2 < 1.0.0-beta.11 < 1.0.0-rc.1 <
1.0.0 holds under `Compare`/`LessThan`. -/
theorem C1_prefix_and_chain :
    (∀ (a b : Class) (l : List Str) (e : Str) (rest : List Str),
      a.major = b.major → a.minor = b.minor → a.patch = b.patch →
      a.pre ≠ [] → b.pre ≠ [] →
      splitAll '.' a.pre = l → splitAll '.' b.pre = l ++ e :: rest → e ≠ [] →
      a.Compare b = -1 ∧ a.LessThan b = true) ∧
    (New (str "1.0.0-alpha") =
        Except.ok ⟨1, 0, 0, str "alpha", [], str "1.0.0-alpha"⟩ ∧
      New (str "1.0.0-alpha.1") =
        Except.ok ⟨1, 0, 0, str "alpha.1", [], str "1.0.0-alpha.1"⟩ ∧
      New (str "1.0.0-alpha.beta") =
        Except.ok ⟨1, 0, 0, str "alpha.beta", [], str "1.0.0-alpha.beta"⟩ ∧
      New (str "1.0.0-beta") =
        Except.ok ⟨1, 0, 0, str "beta", [], str "1.0.0-beta"⟩ ∧
      New (str "1.0.0-beta.2") =
        Except.ok ⟨1, 0, 0, str "beta.2", [], str "1.0.0-beta.2"⟩ ∧
      New (str "1.0.0-beta.11") =
        Except.ok ⟨1, 0, 0, str "beta.11", [], str "1.0.0-beta.11"⟩ ∧
      New (str "1.0.0-rc.1") =
        Except.ok ⟨1, 0, 0, str "rc.1", [], str "1.0.0-rc.1"⟩ ∧
      New (str "1.0.0") = Except.ok ⟨1, 0, 0, [], [], str "1.0.0"⟩) ∧
    ((⟨1, 0, 0, str "alpha", [], str "1.0.0-alpha"⟩ : Class).LessThan
        ⟨1, 0, 0, str "alpha.1", [], str "1.0.0-alpha.1"⟩ = true ∧
      (⟨1, 0, 0, str "alpha.1", [], str "1.0.0-alpha.1"⟩ : Class).LessThan
        ⟨1, 0, 0, str "alpha.beta", [], str "1.0.0-alpha.beta"⟩ = true ∧
      (⟨1, 0, 0, str "alpha.beta", [], str "1.0.0-alpha.beta"⟩ : Class).LessThan
        ⟨1, 0, 0, str "beta", [], str "1.0.0-beta"⟩ = true ∧
      (⟨1, 0, 0, str "beta", [], str "1.0.0-beta"⟩ : Class).LessThan
        ⟨1, 0, 0, str "beta.2", [], str "1.0.0-beta.2"⟩ = true ∧
      (⟨1, 0, 0, str "beta.2", [], str "1.0.0-beta.2"⟩ : Class).LessThan
        ⟨1, 0, 0, str "beta.11", [], str "1.0.0-beta.11"⟩ = true ∧
      (⟨1, 0, 0, str "beta.11", [], str "1.0.0-beta.11"⟩ : Class).LessThan
        ⟨1, 0, 0, str "rc.1", [], str "1.0.0-rc.1"⟩ = true ∧
      (⟨1, 0, 0, str "rc.1", [], str "1.0.0-rc.1"⟩ : Class).LessThan
        ⟨1, 0, 0, [], [], str "1.0.0"⟩ = true) := by
  refine ⟨?_, ⟨by decide, by decide, by decide, by decide, by decide, by decide,
    by decide, by decide⟩,
    ⟨by decide, by decide, by decide, by decide, by decide, by decide, by decide⟩⟩
  intro a b l e rest h1 h2 h3 h4 h5 h6 h7 h8
  have hcmp : a.Compare b = -1 := by
    simp only [Class.Compare, h1, h2, h3, compareSegment_self]
    simp only [ne_eq, not_true_eq_false, if_false]
    rw [if_neg (by simp [h4]), if_neg h4, if_neg h5]
    simp only [comparePrerelease, h6, h7]
    exact comparePreLists_proper_prefix l e rest h8
  exact ⟨hcmp, by simp [Class.LessThan, hcmp]⟩

/-- Witness for C1's prefix rule at 1.0.0-alpha versus 1.0.0-alpha.1. -/
theorem C1_witness :
    (⟨1, 0, 0, str "alpha", [], str "1.0.0-alpha"⟩ : Class).Compare
        ⟨1, 0, 0, str "alpha.1", [], str "1.0.0-alpha.1"⟩ = -1 ∧
    (⟨1, 0, 0, str "alpha", [], str "1.0.0-alpha"⟩ : Class).LessThan
        ⟨1, 0, 0, str "alpha.1", [], str "1.0.0-alpha.1"⟩ = true := by
  exact C1_prefix_and_chain.1 _ _ [str "alpha"] (str "1") [] rfl rfl rfl
    (by decide) (by decide) (by decide) (by decide) (by decide)

/-- C8 (counterexample): the StrictNew-accepted versions 1.0.0-a and 1.0.0-a.
are `Equal`, yet their prerelease fields differ ("a" versus "a."): the `iff`
direction from `Equal` to exact field agreement fails. -/
theorem C8_counterexample :
    StrictNew (str "1.0.0-a") = Except.ok ⟨1, 0, 0, str "a", [], str "1.0.0-a"⟩ ∧
    StrictNew (str "1.0.0-a.") = Except.ok ⟨1, 0, 0, str "a.", [], str "1.0.0-a."⟩ ∧
    (⟨1, 0, 0, str "a", [], str "1.0.0-a"⟩ : Class).Equal
      ⟨1, 0, 0, str "a.", [], str "1.0.0-a."⟩ = true ∧
    str "a" ≠ str "a." := by
  exact ⟨by decide, by decide, by decide, by decide⟩

/-- C8 (amended): for versions whose prerelease identifier sequences contain
no empty identifier (every lenient-parsed version qualifies; StrictNew and
SetPrerelease admit trailing-dot forms such as "a." that break the reverse
direction), `Equal(a, b)` holds iff the major, minor, patch and prerelease
fields match exactly; build metadata never affects `Equal`, so
Parse("1.0.0+a") equals Parse("1.0.0+b"). -/
theorem C8_equal_iff :
    (∀ a b : Class,
      (a.pre ≠ [] → ∀ id ∈ splitAll '.' a.pre, id ≠ []) →
      (b.pre ≠ [] → ∀ id ∈ splitAll '.' b.pre, id ≠ []) →
      (a.Equal b = true ↔
        a.major = b.major ∧ a.minor = b.minor ∧ a.patch = b.patch ∧
          a.pre = b.pre)) ∧
    New (str "1.0.0+a") = Except.ok ⟨1, 0, 0, [], str "a", str "1.0.0+a"⟩ ∧
    New (str "1.0.0+b") = Except.ok ⟨1, 0, 0, [], str "b", str "1.0.0+b"⟩ ∧
    (⟨1, 0, 0, [], str "a", str "1.0.0+a"⟩ : Class).Equal
      ⟨1, 0, 0, [], str "b", str "1.0.0+b"⟩ = true := by
  refine ⟨?_, by decide, by decide, by decide⟩
  intro a b ha hb
  have hz := class_compare_zero_iff a b ha hb
  constructor
  · intro h
    apply hz.mp
    simpa [Class.Equal] using h
  · intro h
    simp only [Class.Equal]
    simp [hz.mpr h]

/-- Witness for C8's equivalence: two versions agreeing on all compared fields
but with different metadata and original strings are Equal. -/
theorem C8_witness :
    (⟨1, 2, 3, str "rc.1", str "x", str "1.2.3-rc.1+x"⟩ : Class).Equal
      ⟨1, 2, 3, str "rc.1", str "y", str "v1.2.3-rc.1+y"⟩ = true := by
  exact (C8_equal_iff.1 _ _ (by decide) (by decide)).mpr ⟨rfl, rfl, rfl, rfl⟩

/-- C5 (counterexample): `StrictNew` - a validated entry point - accepts
"1.0.0-a.", whose prerelease "a." splits into the identifiers ["a", ""]: the
empty identifier passes `validatePrerelease`, because an empty string is
vacuously all-numeric and has no leading zero. -/
theorem C5_counterexample :
    StrictNew (str "1.0.0-a.") = Except.ok ⟨1, 0, 0, str "a.", [], str "1.0.0-a."⟩ ∧
    (splitAll '.' (str "a.")).contains [] = true := by
  exact ⟨by decide, by decide⟩

/-- C5 (amended): every validated operation (New, StrictNew, SetPrerelease)
guarantees that purely-numeric prerelease identifiers have no leading zero
(unless the identifier is exactly "0"); the lenient parser `New` additionally
guarantees every prerelease identifier is non-empty, but `StrictNew` and
`SetPrerelease` also accept prereleases containing empty identifiers (such as
"a."). -/
theorem C5_prerelease_invariants :
    (∀ (s : Str) (c : Class), New s = Except.ok c → c.pre ≠ [] →
      ∀ id ∈ splitAll '.' c.pre, id ≠ []) ∧
    (∀ (s : Str) (c : Class), New s = Except.ok c →
      ∀ id ∈ splitAll '.' c.pre, containsOnly id numChars = true →
        leadingZero id = false) ∧
    (∀ (s : Str) (c : Class), StrictNew s = Except.ok c →
      ∀ id ∈ splitAll '.' c.pre, containsOnly id numChars = true →
        leadingZero id = false) ∧
    (∀ (v : Class) (p : Str), (v.SetPrerelease p).2.2 = none →
      ∀ id ∈ splitAll '.' ((v.SetPrerelease p).2.1.pre),
        containsOnly id numChars = true → leadingZero id = false) := by
  refine ⟨?_, ?_, ?_, ?_⟩
  · intro s c h hne id hid
    obtain ⟨m, hm, hpre, -, -, -, -⟩ := New_ok_inv h
    rcases (findStringSubmatch_pre_shape hm).1 with hnil | ⟨ids, hids, hne2, hprops⟩
    · rw [hpre, hnil] at hne
      exact absurd rfl hne
    · rw [hpre, hids] at hid
      rw [splitAll_joinDot ids hne2
        (fun i hi => not_dot_mem_of_identChars (hprops i hi).2)] at hid
      exact (hprops id hid).1
  · intro s c h id hid hnum
    obtain ⟨m, hm, hpre, -, hval, -, -⟩ := New_ok_inv h
    by_cases hne : c.pre = []
    · rw [hne] at hid
      have he : splitAll '.' ([] : Str) = [[]] := by decide
      rw [he] at hid
      have hie : id = [] := by simpa using hid
      rw [hie]
      rfl
    · rw [hpre] at hne hid
      exact validatePreList_no_lz _ (hval hne) id hid hnum
  · intro s c h id hid hnum
    rcases StrictNew_ok_pre h with hnil | hval
    · rw [hnil] at hid
      have he : splitAll '.' ([] : Str) = [[]] := by decide
      rw [he] at hid
      have hie : id = [] := by simpa using hid
      rw [hie]
      rfl
    · exact validatePreList_no_lz _ hval id hid hnum
  · intro v p h id hid hnum
    simp only [Class.SetPrerelease] at h hid
    match hv : (if p.length > 0 then validatePrerelease p else none) with
    | some e => simp only [hv] at h; simp at h
    | none =>
      simp only [hv] at hid
      by_cases hp : p.length > 0
      · rw [if_pos hp] at hv
        exact validatePreList_no_lz _ hv id hid hnum
      · have hpe : p = [] := by
          cases p with
          | nil => rfl
          | cons a as => simp at hp
        subst hpe
        have he : splitAll '.' ([] : Str) = [[]] := by decide
        rw [he] at hid
        have hie : id = [] := by simpa using hid
        rw [hie]
        rfl

/-- Witness for C5's non-emptiness clause at the parsed version 1.0.0-rc.1,
whose identifiers "rc" and "1" are non-empty. -/
theorem C5_witness : str "rc" ≠ [] ∧ str "1" ≠ [] := by
  have h := C5_prerelease_invariants.1 (str "1.0.0-rc.1")
    ⟨1, 0, 0, str "rc.1", [], str "1.0.0-rc.1"⟩ (by decide) (by decide)
  exact ⟨h (str "rc") (by decide), h (str "1") (by decide)⟩

/-! ### Running the lenient parser on canonical full-form strings -/

/-- The "full form" input shape of the round-trip claim: an optional leading
`v`, the three numeric segments in canonical decimal, then `-pre` when the
prerelease identifier list is non-empty and `+meta` when the metadata
identifier list is non-empty. -/
def fullForm (vp : Bool) (a b c : Nat) (preIds metaIds : List Str) : Str :=
  (if vp then ['v'] else []) ++
    (natToStr a ++ ('.' :: (natToStr b ++ ('.' :: (natToStr c ++
      ((if preIds ≠ [] then '-' :: joinDot preIds else []) ++
       (if metaIds ≠ [] then '+' :: joinDot metaIds else [])))))))

theorem digitC_ne_v {d : Char} (h : isDigitC d = true) : ¬ (d = 'v') := by
  rcases digit_cases h with rfl|rfl|rfl|rfl|rfl|rfl|rfl|rfl|rfl|rfl <;> decide

theorem natToStr_forall_digits (n : Nat) : ∀ x ∈ natToStr n, isDigitC x = true :=
  List.all_eq_true.mp (natToStr_all_digits n)

theorem joinDot_ne_nil : ∀ {ids : List Str}, ids ≠ [] →
    (∀ id ∈ ids, id ≠ []) → joinDot ids ≠ [] := by
  intro ids hne h
  match ids, hne with
  | [i], _ => exact h i (by simp)
  | i :: j :: js, _ =>
    rw [joinDot_cons_cons]
    intro hc
    have hlen := congrArg List.length hc
    simp at hlen

theorem parseUint64_natToStr {n : Nat} (h : n < 2 ^ 64) :
    parseUint64 (natToStr n) = some n := by
  simp [parseUint64, natToStr_ne_nil, natToStr_all_digits, digitsVal_natToStr, h]
  omega

theorem parseNumGroup_run (n : Nat) (rest : Str) (hstop : stopsRun isDigitC rest) :
    parseNumGroup ('.' :: (natToStr n ++ rest)) = (some (natToStr n), rest) := by
  obtain ⟨h1, h2⟩ := takeWhile_append_all (natToStr n) rest
    (natToStr_forall_digits n) hstop
  simp only [parseNumGroup, if_pos rfl, h1, h2, if_neg (natToStr_ne_nil n)]
  simp

theorem matchMetaEnd_nil (majS : Str) (mi pa : Option Str) (preS : Str) :
    matchMetaEnd majS mi pa preS [] = some ⟨majS, mi, pa, preS, []⟩ := rfl

theorem matchMetaEnd_plus (majS : Str) (mi pa : Option Str) (preS : Str)
    {metaIds : List Str} (hne : metaIds ≠ [])
    (hm : ∀ id ∈ metaIds, id ≠ [] ∧ id.all isIdentChar = true) :
    matchMetaEnd majS mi pa preS ('+' :: joinDot metaIds) =
      some ⟨majS, mi, pa, preS, joinDot metaIds⟩ := by
  have hp : parseIdents (joinDot metaIds) = some (metaIds, []) := by
    have := parseIdents_join metaIds [] hne hm (Or.inl rfl)
    rwa [List.append_nil] at this
  simp only [matchMetaEnd, if_pos rfl, hp, if_pos rfl]
  simp

theorem stripV_v (s : Str) : stripV ('v' :: s) = s := by
  show (if 'v' = 'v' then s else 'v' :: s) = s
  rw [if_pos rfl]

theorem stripV_fullForm_false (a b c : Nat) (preIds metaIds : List Str) :
    stripV (fullForm false a b c preIds metaIds) =
      fullForm false a b c preIds metaIds := by
  obtain ⟨d, ds, hna⟩ : ∃ d ds, natToStr a = d :: ds := by
    cases hx : natToStr a with
    | nil => exact absurd hx (natToStr_ne_nil a)
    | cons d ds => exact ⟨d, ds, rfl⟩
  have hdv : ¬ (d = 'v') := digitC_ne_v (natToStr_forall_digits a d (by rw [hna]; simp))
  rw [show fullForm false a b c preIds metaIds =
      natToStr a ++ ('.' :: (natToStr b ++ ('.' :: (natToStr c ++
        ((if preIds ≠ [] then '-' :: joinDot preIds else []) ++
         (if metaIds ≠ [] then '+' :: joinDot metaIds else [])))))) from rfl]
  rw [hna, List.cons_append]
  simp only [stripV]
  rw [if_neg hdv]

theorem findStringSubmatch_stripV_eq (s : Str) (h : stripV s = s) :
    findStringSubmatch ('v' :: s) = findStringSubmatch s := by
  simp only [findStringSubmatch, stripV_v, h]

theorem findStringSubmatch_noV (a b c : Nat) (preIds metaIds : List Str)
    (hpre : ∀ id ∈ preIds, id ≠ [] ∧ id.all isIdentChar = true)
    (hmeta : ∀ id ∈ metaIds, id ≠ [] ∧ id.all isIdentChar = true) :
    findStringSubmatch (fullForm false a b c preIds metaIds) =
      some ⟨natToStr a, some (natToStr b), some (natToStr c),
        joinDot preIds, joinDot metaIds⟩ := by
  have hMstop : tailStop (if metaIds ≠ [] then '+' :: joinDot metaIds else []) := by
    by_cases hm : metaIds = []
    · rw [if_neg (by simp [hm])]
      exact Or.inl rfl
    · rw [if_pos hm]
      exact Or.inr ⟨'+', joinDot metaIds, rfl, by decide, by decide⟩
  have hPMstop : stopsRun isDigitC
      ((if preIds ≠ [] then '-' :: joinDot preIds else []) ++
       (if metaIds ≠ [] then '+' :: joinDot metaIds else [])) := by
    by_cases hp : preIds = []
    · rw [if_neg (by simp [hp]), List.nil_append]
      by_cases hm : metaIds = []
      · rw [if_neg (by simp [hm])]
        exact Or.inl rfl
      · rw [if_pos hm]
        exact Or.inr ⟨'+', joinDot metaIds, rfl, by decide⟩
    · rw [if_pos hp, List.cons_append]
      exact Or.inr ⟨'-', _, rfl, by decide⟩
  have hff : fullForm false a b c preIds metaIds =
      natToStr a ++ ('.' :: (natToStr b ++ ('.' :: (natToStr c ++
        ((if preIds ≠ [] then '-' :: joinDot preIds else []) ++
         (if metaIds ≠ [] then '+' :: joinDot metaIds else [])))))) := rfl
  obtain ⟨ht1, hd1⟩ := takeWhile_append_all (natToStr a)
    ('.' :: (natToStr b ++ ('.' :: (natToStr c ++
      ((if preIds ≠ [] then '-' :: joinDot preIds else []) ++
       (if metaIds ≠ [] then '+' :: joinDot metaIds else []))))))
    (natToStr_forall_digits a) (Or.inr ⟨'.', _, rfl, by decide⟩)
  have hg1 : parseNumGroup ('.' :: (natToStr b ++ ('.' :: (natToStr c ++
      ((if preIds ≠ [] then '-' :: joinDot preIds else []) ++
       (if metaIds ≠ [] then '+' :: joinDot metaIds else [])))))) =
      (some (natToStr b), '.' :: (natToStr c ++
        ((if preIds ≠ [] then '-' :: joinDot preIds else []) ++
         (if metaIds ≠ [] then '+' :: joinDot metaIds else [])))) :=
    parseNumGroup_run b _ (Or.inr ⟨'.', _, rfl, by decide⟩)
  have hg2 : parseNumGroup ('.' :: (natToStr c ++
      ((if preIds ≠ [] then '-' :: joinDot preIds else []) ++
       (if metaIds ≠ [] then '+' :: joinDot metaIds else [])))) =
      (some (natToStr c),
        (if preIds ≠ [] then '-' :: joinDot preIds else []) ++
        (if metaIds ≠ [] then '+' :: joinDot metaIds else [])) :=
    parseNumGroup_run c _ hPMstop
  simp only [findStringSubmatch, stripV_fullForm_false]
  rw [hff]
  have hcond : ¬ (List.takeWhile isDigitC
      (natToStr a ++ ('.' :: (natToStr b ++ ('.' :: (natToStr c ++
        ((if preIds ≠ [] then '-' :: joinDot preIds else []) ++
         (if metaIds ≠ [] then '+' :: joinDot metaIds else []))))))) = []) := by
    rw [ht1]
    exact natToStr_ne_nil a
  rw [if_neg hcond]
  simp only [ht1, hd1, hg1, hg2]
  by_cases hp : preIds = []
  · rw [if_neg (by simp [hp]), List.nil_append]
    by_cases hm : metaIds = []
    · rw [if_neg (by simp [hm])]
      rw [hp, hm]
      rfl
    · rw [if_pos hm]
      show matchMetaEnd (natToStr a) (some (natToStr b)) (some (natToStr c)) []
          ('+' :: joinDot metaIds) =
        some ⟨natToStr a, some (natToStr b), some (natToStr c),
          joinDot preIds, joinDot metaIds⟩
      rw [matchMetaEnd_plus (natToStr a) (some (natToStr b)) (some (natToStr c))
        [] hm hmeta]
      rw [hp]
      rfl
  · rw [if_pos hp, List.cons_append]
    have hpi := parseIdents_join preIds
      (if metaIds ≠ [] then '+' :: joinDot metaIds else []) hp hpre hMstop
    show (match parseIdents (joinDot preIds ++
        (if metaIds ≠ [] then '+' :: joinDot metaIds else [])) with
      | none => none
      | some (ids, r4) => matchMetaEnd (natToStr a) (some (natToStr b))
          (some (natToStr c)) (joinDot ids) r4) =
      some ⟨natToStr a, some (natToStr b), some (natToStr c),
        joinDot preIds, joinDot metaIds⟩
    rw [hpi]
    show matchMetaEnd (natToStr a) (some (natToStr b)) (some (natToStr c))
        (joinDot preIds) (if metaIds ≠ [] then '+' :: joinDot metaIds else []) =
      some ⟨natToStr a, some (natToStr b), some (natToStr c),
        joinDot preIds, joinDot metaIds⟩
    by_cases hm : metaIds = []
    · rw [if_neg (by simp [hm]), matchMetaEnd_nil, hm]
      rfl
    · rw [if_pos hm,
        matchMetaEnd_plus (natToStr a) (some (natToStr b)) (some (natToStr c))
          (joinDot preIds) hm hmeta]

theorem joinDot_nil : joinDot [] = [] := rfl

theorem findStringSubmatch_fullForm (vp : Bool) (a b c : Nat)
    (preIds metaIds : List Str)
    (hpre : ∀ id ∈ preIds, id ≠ [] ∧ id.all isIdentChar = true)
    (hmeta : ∀ id ∈ metaIds, id ≠ [] ∧ id.all isIdentChar = true) :
    findStringSubmatch (fullForm vp a b c preIds metaIds) =
      some ⟨natToStr a, some (natToStr b), some (natToStr c),
        joinDot preIds, joinDot metaIds⟩ := by
  cases vp with
  | false => exact findStringSubmatch_noV a b c preIds metaIds hpre hmeta
  | true =>
    have h1 : fullForm true a b c preIds metaIds =
        'v' :: fullForm false a b c preIds metaIds := rfl
    rw [h1, findStringSubmatch_stripV_eq _ (stripV_fullForm_false a b c preIds metaIds)]
    exact findStringSubmatch_noV a b c preIds metaIds hpre hmeta

theorem New_fullForm (vp : Bool) (a b c : Nat) (preIds metaIds : List Str)
    (ha : a < 2 ^ 64) (hb : b < 2 ^ 64) (hc : c < 2 ^ 64)
    (hpre : ∀ id ∈ preIds, id ≠ [] ∧ id.all isIdentChar = true)
    (hmeta : ∀ id ∈ metaIds, id ≠ [] ∧ id.all isIdentChar = true)
    (hvp : validatePrerelease (joinDot preIds) = none)
    (hvm : validateMetadata (joinDot metaIds) = none) :
    New (fullForm vp a b c preIds metaIds) =
      Except.ok ⟨a, b, c, joinDot preIds, joinDot metaIds,
        fullForm vp a b c preIds metaIds⟩ := by
  have hv1 : (if joinDot preIds ≠ [] then validatePrerelease (joinDot preIds)
      else none) = none := by
    split
    · exact hvp
    · rfl
  have hv2 : (if joinDot metaIds ≠ [] then validateMetadata (joinDot metaIds)
      else none) = none := by
    split
    · exact hvm
    · rfl
  simp only [New, findStringSubmatch_fullForm vp a b c preIds metaIds hpre hmeta,
    parseOptSeg, parseUint64_natToStr ha, parseUint64_natToStr hb,
    parseUint64_natToStr hc, hv1, hv2]

/-- C4 (counterexample): "01.2.3" is of the full form major.minor.patch and is
accepted by lenient parse, but `String()` renders the parsed value as
"1.2.3", not the original string, so the round trip is not exact. -/
theorem C4_counterexample :
    New (str "01.2.3") = Except.ok ⟨1, 2, 3, [], [], str "01.2.3"⟩ ∧
    Class.String ⟨1, 2, 3, [], [], str "01.2.3"⟩ = str "1.2.3" ∧
    str "1.2.3" ≠ str "01.2.3" := by
  exact ⟨by decide, by decide, by decide⟩

/-- C4 (amended): for every string of the full form
`[v]major.minor.patch[-pre][+meta]` whose numeric segments are written in
canonical decimal (no leading zeros - lenient parse also accepts forms like
"01.2.3" but then prints them canonically), with in-range segments, non-empty
well-formed identifiers and passing validators, lenient parse accepts the
string and `String()` reproduces it exactly, with any leading "v" stripped. -/
theorem C4_roundtrip (vp : Bool) (a b c : Nat) (preIds metaIds : List Str)
    (ha : a < 2 ^ 64) (hb : b < 2 ^ 64) (hc : c < 2 ^ 64)
    (hpre : ∀ id ∈ preIds, id ≠ [] ∧ id.all isIdentChar = true)
    (hmeta : ∀ id ∈ metaIds, id ≠ [] ∧ id.all isIdentChar = true)
    (hvp : validatePrerelease (joinDot preIds) = none)
    (hvm : validateMetadata (joinDot metaIds) = none) :
    New (fullForm vp a b c preIds metaIds) =
      Except.ok ⟨a, b, c, joinDot preIds, joinDot metaIds,
        fullForm vp a b c preIds metaIds⟩ ∧
    Class.String ⟨a, b, c, joinDot preIds, joinDot metaIds,
        fullForm vp a b c preIds metaIds⟩ =
      fullForm false a b c preIds metaIds := by
  refine ⟨New_fullForm vp a b c preIds metaIds ha hb hc hpre hmeta hvp hvm, ?_⟩
  by_cases hp : preIds = [] <;> by_cases hm : metaIds = []
  · simp [Class.String, fullForm, hp, hm, joinDot_nil]
  · simp [Class.String, fullForm, hp, hm, joinDot_nil,
      joinDot_ne_nil hm (fun id hid => (hmeta id hid).1)]
  · simp [Class.String, fullForm, hp, hm, joinDot_nil,
      joinDot_ne_nil hp (fun id hid => (hpre id hid).1)]
  · simp [Class.String, fullForm, hp, hm,
      joinDot_ne_nil hp (fun id hid => (hpre id hid).1),
      joinDot_ne_nil hm (fun id hid => (hmeta id hid).1)]

/-- Witness for C4 at the string "v1.2.3-rc.1+b05". -/
theorem C4_witness :
    New (fullForm true 1 2 3 [str "rc", str "1"] [str "b05"]) =
      Except.ok ⟨1, 2, 3, str "rc.1", str "b05",
        fullForm true 1 2 3 [str "rc", str "1"] [str "b05"]⟩ ∧
    Class.String ⟨1, 2, 3, str "rc.1", str "b05",
        fullForm true 1 2 3 [str "rc", str "1"] [str "b05"]⟩ =
      fullForm false 1 2 3 [str "rc", str "1"] [str "b05"] := by
  have hj1 : joinDot [str "rc", str "1"] = str "rc.1" := by decide
  have hj2 : joinDot [str "b05"] = str "b05" := by decide
  have h := C4_roundtrip true 1 2 3 [str "rc", str "1"] [str "b05"]
    (by decide) (by decide) (by decide) (by decide) (by decide)
    (by decide) (by decide)
  rw [hj1, hj2] at h
  exact h

end Version
